import Mathlib

/-!
Verification development for the emnexmovies backend core.

This file gives a shallow embedding, in Lean 4, of the parts of the
JavaScript source that the specification talks about:

* the flat, index-referenced payload decoder
  (`parseMovieDetailPage.resolveValue` and
  `parseDownloadableMetadata.resolveValue` in the HTML/JSON parsing
  utilities),
* the multi-host failover request dispatcher and its header
  construction (`makeRequest` in `backend/utils/proxy.js`),
* the session-cookie store (`ensureCookiesAreAssigned`, `mergeCookies`),
* the download-candidate filter and the HEAD-probe outcome mapping of
  the download proxy route,
* the byte-range handling of `GET /download`
  (`backend/routes/download.js`),
* the CORS origin gate of the Express server.

JavaScript values are modelled with explicit datatypes; JS recursion is
modelled with a fuel parameter (`none` means "needs more fuel", so
divergence of the JS function corresponds to the fuel-indexed family
being `none` for every fuel).  JS strings are modelled as `List Char`
where string algorithms matter, so that every operation is a plain
recursive function amenable to proof.
-/

/-- JSON-like values as produced by `JSON.parse`, plus `undefV` for the
JavaScript `undefined` value that appears when an array is indexed out
of bounds.  Objects are insertion-ordered lists of fields, mirroring JS
object semantics for non-numeric keys. -/
inductive JsonValue where
  | null : JsonValue
  | bool (b : Bool) : JsonValue
  | num (n : Int) : JsonValue
  | str (s : String) : JsonValue
  | undefV : JsonValue
  | arr (xs : List JsonValue) : JsonValue
  | obj (fields : List (String × JsonValue)) : JsonValue

/-- JavaScript array indexing `data[i]` for an `Int` index: out-of-range
(including negative) indices yield `undefined`. -/
def storeGet (data : List JsonValue) (i : Int) : JsonValue :=
  if h : 0 ≤ i ∧ i.toNat < data.length then data.get ⟨i.toNat, h.2⟩ else .undefV

/-- Option-valued `mapM` written as plain recursion, used to propagate
"needs more fuel" through element-wise resolution. -/
def mapMO (f : α → Option β) : List α → Option (List β)
  | [] => some []
  | x :: xs =>
    match f x, mapMO f xs with
    | some y, some ys => some (y :: ys)
    | _, _ => none

/-- Generic form of the two `resolveValue` closures.  `eh i` decides
whether an integer array element `i` is dereferenced into the store;
`fh i` decides the same for an integer object-field value.  Recursion
depth is paid for by `fuel`; each JS recursive call costs one unit. -/
def resolveG (eh fh : Int → Bool) (data : List JsonValue) : Nat → JsonValue → Option JsonValue
  | 0, _ => none
  | fuel + 1, .arr xs =>
    (mapMO (fun x =>
      match x with
      | .num i =>
        if eh i then resolveG eh fh data fuel (storeGet data i)
        else resolveG eh fh data fuel (.num i)
      | _ => resolveG eh fh data fuel x) xs).map .arr
  | fuel + 1, .obj fs =>
    (mapMO (fun kv =>
      (match kv.2 with
       | .num i =>
         if fh i then resolveG eh fh data fuel (storeGet data i)
         else resolveG eh fh data fuel (.num i)
       | _ => resolveG eh fh data fuel kv.2).map (fun w => (kv.1, w))) fs).map .obj
  | _ + 1, v => some v

/-- Element/field dereference guard of `parseMovieDetailPage.resolveValue`:
`typeof v === 'number' && v >= 0 && v < data.length` (used both for array
elements and for object-field values). -/
def mdpHit (data : List JsonValue) (i : Int) : Bool :=
  decide (0 ≤ i) && decide (i < (data.length : Int))

/-- Array-element dereference guard of
`parseDownloadableMetadata.resolveValue`: `typeof v === 'number'` with no
range check at all. -/
def dmElemHit (_ : List JsonValue) (_ : Int) : Bool := true

/-- Object-field dereference guard of
`parseDownloadableMetadata.resolveValue`:
`typeof v === 'number' && v < data.length` — no lower bound. -/
def dmFieldHit (data : List JsonValue) (i : Int) : Bool :=
  decide (i < (data.length : Int))

/-- The resolver closure of `parseMovieDetailPage` (fuel-indexed). -/
def resolveValueMDP (data : List JsonValue) : Nat → JsonValue → Option JsonValue :=
  resolveG (mdpHit data) (mdpHit data) data

/-- The resolver closure of `parseDownloadableMetadata` (fuel-indexed). -/
def resolveValueDM (data : List JsonValue) : Nat → JsonValue → Option JsonValue :=
  resolveG (dmElemHit data) (dmFieldHit data) data

-- Structural size of a JSON value (used to budget the fuel).
mutual

def sizeJ : JsonValue → Nat
  | .arr xs => 1 + sizeJL xs
  | .obj fs => 1 + sizeJF fs
  | _ => 1

def sizeJL : List JsonValue → Nat
  | [] => 0
  | x :: xs => sizeJ x + sizeJL xs

def sizeJF : List (String × JsonValue) → Nat
  | [] => 0
  | kv :: fs => sizeJ kv.2 + sizeJF fs

end

-- The store indices that a value would cause the resolver to
-- dereference: integers at array-element positions accepted by `eh` and
-- integers at object-field positions accepted by `fh`.
mutual

def refsV (eh fh : Int → Bool) : JsonValue → List Int
  | .arr xs => refsL eh fh xs
  | .obj fs => refsF eh fh fs
  | _ => []

def refsL (eh fh : Int → Bool) : List JsonValue → List Int
  | [] => []
  | x :: xs =>
    (match x with
     | .num i => if eh i then [i] else []
     | _ => refsV eh fh x) ++ refsL eh fh xs

def refsF (eh fh : Int → Bool) : List (String × JsonValue) → List Int
  | [] => []
  | kv :: fs =>
    (match kv.2 with
     | .num i => if fh i then [i] else []
     | _ => refsV eh fh kv.2) ++ refsF eh fh fs

end

/-- References contributed by a single array element. -/
def elemRefs (eh fh : Int → Bool) (x : JsonValue) : List Int :=
  match x with
  | .num i => if eh i then [i] else []
  | _ => refsV eh fh x

/-- References contributed by a single object-field value. -/
def fieldRefs (eh fh : Int → Bool) (x : JsonValue) : List Int :=
  match x with
  | .num i => if fh i then [i] else []
  | _ => refsV eh fh x

lemma refsL_cons (eh fh : Int → Bool) (x : JsonValue) (xs : List JsonValue) :
    refsL eh fh (x :: xs) = elemRefs eh fh x ++ refsL eh fh xs := by
  cases x <;> rfl

lemma refsF_cons (eh fh : Int → Bool) (kv : String × JsonValue) (fs : List (String × JsonValue)) :
    refsF eh fh (kv :: fs) = fieldRefs eh fh kv.2 ++ refsF eh fh fs := by
  obtain ⟨k, val⟩ := kv
  cases val <;> rfl

lemma mem_refsL_of_mem {eh fh : Int → Bool} {x : JsonValue} {xs : List JsonValue}
    (hx : x ∈ xs) {j : Int} (hj : j ∈ elemRefs eh fh x) : j ∈ refsL eh fh xs := by
  induction xs with
  | nil => cases hx
  | cons y ys ih =>
    rw [refsL_cons]
    rcases List.mem_cons.mp hx with h | h
    · subst h; exact List.mem_append_left _ hj
    · exact List.mem_append_right _ (ih h)

lemma mem_refsF_of_mem {eh fh : Int → Bool} {kv : String × JsonValue}
    {fs : List (String × JsonValue)} (hkv : kv ∈ fs) {j : Int}
    (hj : j ∈ fieldRefs eh fh kv.2) : j ∈ refsF eh fh fs := by
  induction fs with
  | nil => cases hkv
  | cons y ys ih =>
    rw [refsF_cons]
    rcases List.mem_cons.mp hkv with h | h
    · subst h; exact List.mem_append_left _ hj
    · exact List.mem_append_right _ (ih h)

lemma sizeJ_pos (v : JsonValue) : 1 ≤ sizeJ v := by
  cases v <;> simp only [sizeJ] <;> omega

lemma sizeJ_le_of_mem {x : JsonValue} {xs : List JsonValue} (hx : x ∈ xs) :
    sizeJ x ≤ sizeJL xs := by
  induction xs with
  | nil => cases hx
  | cons y ys ih =>
    rcases List.mem_cons.mp hx with h | h
    · subst h; simp [sizeJL]
    · have := ih h; simp [sizeJL]; omega

lemma sizeJ_le_of_mem_F {kv : String × JsonValue} {fs : List (String × JsonValue)}
    (hkv : kv ∈ fs) : sizeJ kv.2 ≤ sizeJF fs := by
  induction fs with
  | nil => cases hkv
  | cons y ys ih =>
    rcases List.mem_cons.mp hkv with h | h
    · subst h; simp [sizeJF]
    · have := ih h; simp [sizeJF]; omega

/-- Upper bound on the size of any store entry (at least 1, so it also
bounds the `undefV` produced by an out-of-range lookup). -/
def maxEntrySize (data : List JsonValue) : Nat :=
  data.foldr (fun v m => max (sizeJ v) m) 1

lemma one_le_maxEntrySize (data : List JsonValue) : 1 ≤ maxEntrySize data := by
  induction data with
  | nil => simp [maxEntrySize]
  | cons v vs ih => simp only [maxEntrySize, List.foldr] at *; omega

lemma sizeJ_entry_le (data : List JsonValue) {v : JsonValue} (hv : v ∈ data) :
    sizeJ v ≤ maxEntrySize data := by
  induction data with
  | nil => cases hv
  | cons w ws ih =>
    rcases List.mem_cons.mp hv with h | h
    · subst h; simp only [maxEntrySize, List.foldr]; omega
    · have := ih h; simp only [maxEntrySize, List.foldr] at *; omega

lemma sizeJ_storeGet_le (data : List JsonValue) (i : Int) :
    sizeJ (storeGet data i) ≤ maxEntrySize data := by
  unfold storeGet
  split
  · exact sizeJ_entry_le data (List.get_mem _ _ _)
  · simpa [sizeJ] using one_le_maxEntrySize data

/-- Resolution of one array element, as performed inside the `value.map`
callback of `resolveValue`: an integer accepted by `eh` is dereferenced
through the store, anything else is resolved in place. -/
def resolveElem (eh fh : Int → Bool) (data : List JsonValue) (fuel : Nat) (x : JsonValue) :
    Option JsonValue :=
  match x with
  | .num i =>
    if eh i then resolveG eh fh data fuel (storeGet data i)
    else resolveG eh fh data fuel (.num i)
  | _ => resolveG eh fh data fuel x

/-- Resolution of one object-field value, as performed inside the
`Object.entries` loop of `resolveValue`. -/
def resolveField (eh fh : Int → Bool) (data : List JsonValue) (fuel : Nat) (x : JsonValue) :
    Option JsonValue :=
  match x with
  | .num i =>
    if fh i then resolveG eh fh data fuel (storeGet data i)
    else resolveG eh fh data fuel (.num i)
  | _ => resolveG eh fh data fuel x

/-- Boolean test for `typeof v === 'number'`. -/
def isNumV : JsonValue → Bool
  | .num _ => true
  | _ => false

lemma mapMO_congr {f g : α → Option β} (h : ∀ x, f x = g x) :
    ∀ xs, mapMO f xs = mapMO g xs := by
  intro xs
  induction xs with
  | nil => rfl
  | cons x xs ih => simp [mapMO, h x, ih]

lemma mapMO_some_of {f : α → Option β} {xs : List α}
    (h : ∀ x ∈ xs, ∃ y, f x = some y) : ∃ ys, mapMO f xs = some ys := by
  induction xs with
  | nil => exact ⟨[], rfl⟩
  | cons x xs ih =>
    obtain ⟨y, hy⟩ := h x (List.mem_cons_self x xs)
    obtain ⟨ys, hys⟩ := ih (fun z hz => h z (List.mem_cons_of_mem _ hz))
    exact ⟨y :: ys, by simp [mapMO, hy, hys]⟩

lemma mapMO_mem {f : α → Option β} :
    ∀ {xs : List α} {ys : List β}, mapMO f xs = some ys →
      ∀ y ∈ ys, ∃ x ∈ xs, f x = some y := by
  intro xs
  induction xs with
  | nil =>
    intro ys h y hy
    simp only [mapMO, Option.some.injEq] at h
    subst h
    cases hy
  | cons x xs ih =>
    intro ys h y hy
    simp only [mapMO] at h
    cases hfx : f x with
    | none => rw [hfx] at h; exact absurd h (by simp)
    | some z =>
      rw [hfx] at h
      cases hrest : mapMO f xs with
      | none => rw [hrest] at h; exact absurd h (by simp)
      | some zs =>
        rw [hrest] at h
        simp only [Option.some.injEq] at h
        subst h
        rcases List.mem_cons.mp hy with h1 | h1
        · exact ⟨x, List.mem_cons_self x xs, by rw [hfx, h1]⟩
        · obtain ⟨x', hx', he⟩ := ih hrest y h1
          exact ⟨x', List.mem_cons_of_mem _ hx', he⟩

lemma resolveG_arr_eq (eh fh : Int → Bool) (data : List JsonValue) (fuel : Nat)
    (xs : List JsonValue) :
    resolveG eh fh data (fuel + 1) (.arr xs) =
      (mapMO (resolveElem eh fh data fuel) xs).map .arr := rfl

lemma resolveG_obj_eq (eh fh : Int → Bool) (data : List JsonValue) (fuel : Nat)
    (fs : List (String × JsonValue)) :
    resolveG eh fh data (fuel + 1) (.obj fs) =
      (mapMO (fun kv => (resolveField eh fh data fuel kv.2).map (fun w => (kv.1, w))) fs).map
        .obj := rfl

lemma resolveG_num_eq {eh fh : Int → Bool} {data : List JsonValue} {fuel : Nat} {i : Int}
    {w : JsonValue} (h : resolveG eh fh data fuel (.num i) = some w) : w = .num i := by
  cases fuel with
  | zero => exact absurd h (by simp [resolveG])
  | succ n =>
    simp only [resolveG, Option.some.injEq] at h
    exact h.symm

lemma resolveG_not_num {eh fh : Int → Bool} {data : List JsonValue} {fuel : Nat}
    {v w : JsonValue} (hv : isNumV v = false)
    (h : resolveG eh fh data fuel v = some w) : isNumV w = false := by
  cases fuel with
  | zero => exact absurd h (by simp [resolveG])
  | succ n =>
    cases v with
    | num i => simp [isNumV] at hv
    | arr xs =>
      rw [resolveG_arr_eq] at h
      obtain ⟨ys, _, rfl⟩ := Option.map_eq_some'.mp h
      rfl
    | obj fs =>
      rw [resolveG_obj_eq] at h
      obtain ⟨ys, _, rfl⟩ := Option.map_eq_some'.mp h
      rfl
    | null => simp only [resolveG, Option.some.injEq] at h; subst h; rfl
    | bool b => simp only [resolveG, Option.some.injEq] at h; subst h; rfl
    | str s => simp only [resolveG, Option.some.injEq] at h; subst h; rfl
    | undefV => simp only [resolveG, Option.some.injEq] at h; subst h; rfl

lemma resolveElem_eq_of_not_num {eh fh : Int → Bool} {data : List JsonValue} {fuel : Nat}
    {x : JsonValue} (hx : isNumV x = false) :
    resolveElem eh fh data fuel x = resolveG eh fh data fuel x := by
  cases x <;> first | rfl | simp [isNumV] at hx

lemma resolveField_eq_of_not_num {eh fh : Int → Bool} {data : List JsonValue} {fuel : Nat}
    {x : JsonValue} (hx : isNumV x = false) :
    resolveField eh fh data fuel x = resolveG eh fh data fuel x := by
  cases x <;> first | rfl | simp [isNumV] at hx

lemma elemRefs_eq_refsV {eh fh : Int → Bool} {x : JsonValue} (hx : isNumV x = false) :
    elemRefs eh fh x = refsV eh fh x := by
  cases x <;> first | rfl | simp [isNumV] at hx

lemma fieldRefs_eq_refsV {eh fh : Int → Bool} {x : JsonValue} (hx : isNumV x = false) :
    fieldRefs eh fh x = refsV eh fh x := by
  cases x <;> first | rfl | simp [isNumV] at hx

lemma not_num_storeGet {data : List JsonValue}
    (hstore : ∀ (k : Nat) (hk : k < data.length), isNumV (data.get ⟨k, hk⟩) = false)
    (i : Int) : isNumV (storeGet data i) = false := by
  unfold storeGet
  split
  · next hin => exact hstore _ hin.2
  · rfl

-- Termination of the resolver on reference-acyclic stores: if a rank
-- function decreases across every store dereference, a fuel of
-- `sizeJ v + B * (maxEntrySize data + 1)` suffices.
theorem resolveG_terminates (eh fh : Int → Bool) (data : List JsonValue) (r : Int → Nat)
    (hr : ∀ (k : Nat) (hk : k < data.length),
      ∀ j ∈ refsV eh fh (data.get ⟨k, hk⟩), r j < r (k : Int)) :
    ∀ (fuel : Nat) (v : JsonValue) (B : Nat),
      (∀ j ∈ refsV eh fh v, r j < B) →
      sizeJ v + B * (maxEntrySize data + 1) ≤ fuel →
      ∃ w, resolveG eh fh data fuel v = some w := by
  intro fuel
  induction fuel with
  | zero =>
    intro v B _ hle
    have := sizeJ_pos v
    omega
  | succ n IH =>
    intro v B hB hle
    cases v with
    | arr xs =>
      have hall : ∀ x ∈ xs, ∃ y, resolveElem eh fh data n x = some y := by
        intro x hxmem
        have hsx : sizeJ x ≤ sizeJL xs := sizeJ_le_of_mem hxmem
        by_cases hxn : isNumV x = true
        · obtain ⟨i, rfl⟩ : ∃ i, x = .num i := by
            cases x <;> simp [isNumV] at hxn ⊢
          by_cases heh : eh i = true
          · have hiB : r i < B := by
              apply hB
              simp only [refsV]
              exact mem_refsL_of_mem hxmem (by simp [elemRefs, heh])
            have hrefs : ∀ j ∈ refsV eh fh (storeGet data i), r j < r i := by
              unfold storeGet
              split
              · next hin =>
                intro j hj
                have := hr i.toNat hin.2 j hj
                rwa [Int.toNat_of_nonneg hin.1] at this
              · intro j hj
                simp [refsV] at hj
            have hsz : sizeJ (storeGet data i) ≤ maxEntrySize data :=
              sizeJ_storeGet_le data i
            have hmul : r i * (maxEntrySize data + 1) ≤ (B - 1) * (maxEntrySize data + 1) :=
              Nat.mul_le_mul_right _ (by omega)
            have hBeq : (B - 1) * (maxEntrySize data + 1) + (maxEntrySize data + 1) =
                B * (maxEntrySize data + 1) := by
              cases B with
              | zero => omega
              | succ b => simp [Nat.succ_sub_one]; ring
            have hfit : sizeJ (storeGet data i) + r i * (maxEntrySize data + 1) ≤ n := by
              simp only [sizeJ] at hle
              omega
            obtain ⟨w, hw⟩ := IH (storeGet data i) (r i) hrefs hfit
            exact ⟨w, by simp [resolveElem, heh, hw]⟩
          · have hrefs : ∀ j ∈ refsV eh fh (JsonValue.num i), r j < B := by
              intro j hj
              simp [refsV] at hj
            have hfit : sizeJ (JsonValue.num i) + B * (maxEntrySize data + 1) ≤ n := by
              simp only [sizeJ] at hle hsx ⊢
              omega
            obtain ⟨w, hw⟩ := IH (JsonValue.num i) B hrefs hfit
            exact ⟨w, by simp [resolveElem, heh, hw]⟩
        · have hxn' : isNumV x = false := by simpa using hxn
          have hrefs : ∀ j ∈ refsV eh fh x, r j < B := by
            intro j hj
            apply hB
            simp only [refsV]
            exact mem_refsL_of_mem hxmem (by rw [elemRefs_eq_refsV hxn']; exact hj)
          have hfit : sizeJ x + B * (maxEntrySize data + 1) ≤ n := by
            simp only [sizeJ] at hle
            omega
          obtain ⟨w, hw⟩ := IH x B hrefs hfit
          exact ⟨w, by rw [resolveElem_eq_of_not_num hxn', hw]⟩
      obtain ⟨ys, hys⟩ := mapMO_some_of hall
      exact ⟨.arr ys, by rw [resolveG_arr_eq, hys]; rfl⟩
    | obj fs =>
      have hall : ∀ kv ∈ fs, ∃ y,
          ((resolveField eh fh data n kv.2).map (fun w => (kv.1, w))) = some y := by
        intro kv hkvmem
        obtain ⟨kname, val⟩ := kv
        dsimp only
        have hsx : sizeJ val ≤ sizeJF fs := sizeJ_le_of_mem_F hkvmem
        suffices hs : ∃ w, resolveField eh fh data n val = some w by
          obtain ⟨w, hw⟩ := hs
          exact ⟨(kname, w), by rw [hw]; rfl⟩
        by_cases hxn : isNumV val = true
        · obtain ⟨i, rfl⟩ : ∃ i, val = .num i := by
            cases val <;> simp [isNumV] at hxn ⊢
          by_cases heh : fh i = true
          · have hiB : r i < B := by
              apply hB
              simp only [refsV]
              exact mem_refsF_of_mem hkvmem (by simp [fieldRefs, heh])
            have hrefs : ∀ j ∈ refsV eh fh (storeGet data i), r j < r i := by
              unfold storeGet
              split
              · next hin =>
                intro j hj
                have := hr i.toNat hin.2 j hj
                rwa [Int.toNat_of_nonneg hin.1] at this
              · intro j hj
                simp [refsV] at hj
            have hsz : sizeJ (storeGet data i) ≤ maxEntrySize data :=
              sizeJ_storeGet_le data i
            have hmul : r i * (maxEntrySize data + 1) ≤ (B - 1) * (maxEntrySize data + 1) :=
              Nat.mul_le_mul_right _ (by omega)
            have hBeq : (B - 1) * (maxEntrySize data + 1) + (maxEntrySize data + 1) =
                B * (maxEntrySize data + 1) := by
              cases B with
              | zero => omega
              | succ b => simp [Nat.succ_sub_one]; ring
            have hfit : sizeJ (storeGet data i) + r i * (maxEntrySize data + 1) ≤ n := by
              simp only [sizeJ] at hle
              omega
            obtain ⟨w, hw⟩ := IH (storeGet data i) (r i) hrefs hfit
            exact ⟨w, by simp [resolveField, heh, hw]⟩
          · have hrefs : ∀ j ∈ refsV eh fh (JsonValue.num i), r j < B := by
              intro j hj
              simp [refsV] at hj
            have hfit : sizeJ (JsonValue.num i) + B * (maxEntrySize data + 1) ≤ n := by
              simp only [sizeJ] at hle hsx ⊢
              omega
            obtain ⟨w, hw⟩ := IH (JsonValue.num i) B hrefs hfit
            exact ⟨w, by simp [resolveField, heh, hw]⟩
        · have hxn' : isNumV val = false := by simpa using hxn
          have hrefs : ∀ j ∈ refsV eh fh val, r j < B := by
            intro j hj
            apply hB
            simp only [refsV]
            exact mem_refsF_of_mem hkvmem (by rw [fieldRefs_eq_refsV hxn']; exact hj)
          have hfit : sizeJ val + B * (maxEntrySize data + 1) ≤ n := by
            simp only [sizeJ] at hle
            omega
          obtain ⟨w, hw⟩ := IH val B hrefs hfit
          exact ⟨w, by rw [resolveField_eq_of_not_num hxn', hw]⟩
      obtain ⟨ys, hys⟩ := mapMO_some_of hall
      exact ⟨.obj ys, by rw [resolveG_obj_eq, hys]; rfl⟩
    | num i => exact ⟨.num i, rfl⟩
    | null => exact ⟨.null, rfl⟩
    | bool b => exact ⟨.bool b, rfl⟩
    | str s => exact ⟨.str s, rfl⟩
    | undefV => exact ⟨.undefV, rfl⟩

lemma refsL_eq_nil {eh fh : Int → Bool} {ys : List JsonValue}
    (h : ∀ y ∈ ys, elemRefs eh fh y = []) : refsL eh fh ys = [] := by
  induction ys with
  | nil => rfl
  | cons y ys ih =>
    rw [refsL_cons, h y (List.mem_cons_self y ys),
      ih (fun z hz => h z (List.mem_cons_of_mem _ hz))]
    rfl

lemma refsF_eq_nil {eh fh : Int → Bool} {ys : List (String × JsonValue)}
    (h : ∀ y ∈ ys, fieldRefs eh fh y.2 = []) : refsF eh fh ys = [] := by
  induction ys with
  | nil => rfl
  | cons y ys ih =>
    rw [refsF_cons, h y (List.mem_cons_self y ys),
      ih (fun z hz => h z (List.mem_cons_of_mem _ hz))]
    rfl

-- Whenever the resolver completes and no store entry is itself a bare
-- number, the output contains no dereferenceable integer reference:
-- every raw in-range reference has been replaced by its resolved entry.
theorem resolveG_no_refs (eh fh : Int → Bool) (data : List JsonValue)
    (hstore : ∀ (k : Nat) (hk : k < data.length), isNumV (data.get ⟨k, hk⟩) = false) :
    ∀ (fuel : Nat) (v w : JsonValue), resolveG eh fh data fuel v = some w →
      refsV eh fh w = [] := by
  intro fuel
  induction fuel with
  | zero =>
    intro v w h
    exact absurd h (by simp [resolveG])
  | succ n IH =>
    intro v w h
    cases v with
    | arr xs =>
      rw [resolveG_arr_eq] at h
      obtain ⟨ys, hys, rfl⟩ := Option.map_eq_some'.mp h
      simp only [refsV]
      apply refsL_eq_nil
      intro y hymem
      obtain ⟨x, hxmem, hfx⟩ := mapMO_mem hys y hymem
      by_cases hxn : isNumV x = true
      · obtain ⟨i, rfl⟩ : ∃ i, x = .num i := by
          cases x <;> simp [isNumV] at hxn ⊢
        by_cases heh : eh i = true
        · simp only [resolveElem, heh, if_true] at hfx
          have hyn : isNumV y = false :=
            resolveG_not_num (not_num_storeGet hstore i) hfx
          rw [elemRefs_eq_refsV hyn]
          exact IH _ _ hfx
        · simp only [resolveElem, heh] at hfx
          rw [if_neg (by simp [heh])] at hfx
          have := resolveG_num_eq hfx
          subst this
          simp [elemRefs, heh]
      · have hxn' : isNumV x = false := by simpa using hxn
        rw [resolveElem_eq_of_not_num hxn'] at hfx
        have hyn : isNumV y = false := resolveG_not_num hxn' hfx
        rw [elemRefs_eq_refsV hyn]
        exact IH _ _ hfx
    | obj fs =>
      rw [resolveG_obj_eq] at h
      obtain ⟨ys, hys, rfl⟩ := Option.map_eq_some'.mp h
      simp only [refsV]
      apply refsF_eq_nil
      intro y hymem
      obtain ⟨kv, hkvmem, hfkv⟩ := mapMO_mem hys y hymem
      obtain ⟨w', hw', rfl⟩ := Option.map_eq_some'.mp hfkv
      dsimp only
      by_cases hxn : isNumV kv.2 = true
      · obtain ⟨i, hkv2⟩ : ∃ i, kv.2 = .num i := by
          cases h2 : kv.2 <;> rw [h2] at hxn <;> simp [isNumV] at hxn ⊢
        rw [hkv2] at hw'
        by_cases heh : fh i = true
        · simp only [resolveField, heh, if_true] at hw'
          have hyn : isNumV w' = false :=
            resolveG_not_num (not_num_storeGet hstore i) hw'
          rw [fieldRefs_eq_refsV hyn]
          exact IH _ _ hw'
        · simp only [resolveField, heh] at hw'
          rw [if_neg (by simp [heh])] at hw'
          have := resolveG_num_eq hw'
          subst this
          simp [fieldRefs, heh]
      · have hxn' : isNumV kv.2 = false := by simpa using hxn
        rw [resolveField_eq_of_not_num hxn'] at hw'
        have hyn : isNumV w' = false := resolveG_not_num hxn' hw'
        rw [fieldRefs_eq_refsV hyn]
        exact IH _ _ hw'
    | num i =>
      have := resolveG_num_eq h
      subst this
      rfl
    | null =>
      simp only [resolveG, Option.some.injEq] at h
      subst h; rfl
    | bool b =>
      simp only [resolveG, Option.some.injEq] at h
      subst h; rfl
    | str s =>
      simp only [resolveG, Option.some.injEq] at h
      subst h; rfl
    | undefV =>
      simp only [resolveG, Option.some.injEq] at h
      subst h; rfl

-- Divergence of the resolver on the one-element cyclic store
-- `[[0]]`: the JS function recurses forever, so the fuel-indexed family
-- is `none` at every fuel.
lemma resolveG_cyclic (eh fh : Int → Bool) (heh : eh 0 = true) :
    ∀ fuel, resolveG eh fh [.arr [.num 0]] fuel (.arr [.num 0]) = none := by
  intro fuel
  induction fuel with
  | zero => rfl
  | succ n IH =>
    rw [resolveG_arr_eq]
    have hsg : storeGet [JsonValue.arr [JsonValue.num 0]] 0 = .arr [.num 0] := rfl
    have h1 : resolveElem eh fh [JsonValue.arr [JsonValue.num 0]] n (.num 0) = none := by
      simp only [resolveElem, heh, if_true, hsg, IH]
    simp [mapMO, h1]

lemma resolveG_num_run (eh fh : Int → Bool) (data : List JsonValue) (fuel : Nat) (i : Int) :
    resolveG eh fh data (fuel + 1) (.num i) = some (.num i) := rfl

lemma resolveG_undef_run (eh fh : Int → Bool) (data : List JsonValue) (fuel : Nat) :
    resolveG eh fh data (fuel + 1) .undefV = some .undefV := rfl

lemma lt_succ_foldr_max {l : List Nat} {a : Nat} (h : a ∈ l) : a < 1 + l.foldr max 0 := by
  induction l with
  | nil => cases h
  | cons x xs ih =>
    rcases List.mem_cons.mp h with h | h
    · simp only [List.foldr]; omega
    · have := ih h; simp only [List.foldr] at *; omega

/-- C1 counterexample: the claim asserts that every integer outside
`[0, len)` at a reference position is kept as a literal scalar by the
payload decoder.  In `parseDownloadableMetadata.resolveValue` an integer
array element is dereferenced with no range check, so the negative index
`-1` against the one-element store `["x"]` is looked up out of bounds
and becomes `undefined` instead of staying the literal `-1`. -/
theorem c1_counterexample :
    resolveValueDM [.str "x"] 3 (.arr [.num (-1)]) = some (.arr [.undefV]) ∧
      some (JsonValue.arr [.undefV]) ≠ some (JsonValue.arr [.num (-1)]) :=
  ⟨rfl, by simp⟩

/-- C1 (amended): in `parseMovieDetailPage.resolveValue`, an integer
outside `[0, len)` — negative included — at an array-element or
object-field position is treated as a literal scalar (no throw, no store
recursion).  In `parseDownloadableMetadata.resolveValue`, integer array
elements are always dereferenced, so an out-of-range one resolves to
`undefined`; integer object-field values are dereferenced whenever they
are below the length (negative included, yielding `undefined`), and only
field values `≥ len` are kept literal.  No case throws. -/
theorem c1_amended :
    (∀ (data : List JsonValue) (fuel : Nat) (i : Int),
        (i < 0 ∨ (data.length : Int) ≤ i) →
        resolveElem (mdpHit data) (mdpHit data) data (fuel + 1) (.num i) = some (.num i) ∧
        resolveField (mdpHit data) (mdpHit data) data (fuel + 1) (.num i) = some (.num i)) ∧
    (∀ (data : List JsonValue) (fuel : Nat) (i : Int),
        (i < 0 ∨ (data.length : Int) ≤ i) →
        resolveElem (dmElemHit data) (dmFieldHit data) data (fuel + 1) (.num i) =
          some .undefV) ∧
    (∀ (data : List JsonValue) (fuel : Nat) (i : Int),
        (data.length : Int) ≤ i →
        resolveField (dmElemHit data) (dmFieldHit data) data (fuel + 1) (.num i) =
          some (.num i)) ∧
    (∀ (data : List JsonValue) (fuel : Nat) (i : Int),
        i < 0 →
        resolveField (dmElemHit data) (dmFieldHit data) data (fuel + 1) (.num i) =
          some .undefV) := by
  refine ⟨?_, ?_, ?_, ?_⟩
  · intro data fuel i h
    have hhit : mdpHit data i = false := by
      unfold mdpHit
      rcases h with h | h
      · have h0 : decide (0 ≤ i) = false := by simp; omega
        simp [h0]
      · have h0 : decide (i < (data.length : Int)) = false := by simp; omega
        simp [h0]
    constructor
    · simp [resolveElem, hhit, resolveG_num_run]
    · simp [resolveField, hhit, resolveG_num_run]
  · intro data fuel i h
    have hsg : storeGet data i = .undefV := by
      unfold storeGet
      rw [dif_neg (by omega)]
    simp [resolveElem, dmElemHit, hsg, resolveG_undef_run]
  · intro data fuel i h
    have hhit : dmFieldHit data i = false := by
      unfold dmFieldHit
      simp
      omega
    simp [resolveField, hhit, resolveG_num_run]
  · intro data fuel i h
    have hhit : dmFieldHit data i = true := by
      unfold dmFieldHit
      simp
      omega
    have hsg : storeGet data i = .undefV := by
      unfold storeGet
      rw [dif_neg (by omega)]
    simp [resolveField, hhit, hsg, resolveG_undef_run]

/-- C1 witness: the amended statement instantiated at the one-element
store `["x"]`, with the out-of-range indices `-1` and `5`. -/
theorem c1_amended_witness :
    resolveElem (mdpHit [JsonValue.str "x"]) (mdpHit [JsonValue.str "x"])
        [JsonValue.str "x"] 1 (.num (-1)) = some (.num (-1)) ∧
    resolveElem (dmElemHit [JsonValue.str "x"]) (dmFieldHit [JsonValue.str "x"])
        [JsonValue.str "x"] 1 (.num (-1)) = some .undefV ∧
    resolveField (dmElemHit [JsonValue.str "x"]) (dmFieldHit [JsonValue.str "x"])
        [JsonValue.str "x"] 1 (.num 5) = some (.num 5) :=
  ⟨(c1_amended.1 [JsonValue.str "x"] 0 (-1) (Or.inl (by decide))).1,
   c1_amended.2.1 [JsonValue.str "x"] 0 (-1) (Or.inl (by decide)),
   c1_amended.2.2.1 [JsonValue.str "x"] 0 5 (by decide)⟩

/-- C2 counterexample: the claim asserts the resolver terminates on
every input because recursion depth is bounded or cycles are checked.
The code has neither guard: on the cyclic store `[[0]]` (entry 0 is an
array whose element references index 0) the resolution of entry 0 needs
more fuel at every fuel, i.e. the JS recursion never returns. -/
theorem c2_counterexample :
    ¬ ∃ (fuel : Nat) (w : JsonValue),
        resolveValueMDP [.arr [.num 0]] fuel (.arr [.num 0]) = some w := by
  rintro ⟨fuel, w, hw⟩
  have hnone := resolveG_cyclic (mdpHit [JsonValue.arr [JsonValue.num 0]])
    (mdpHit [JsonValue.arr [JsonValue.num 0]]) (by decide) fuel
  unfold resolveValueMDP at hw
  rw [hnone] at hw
  cases hw

/-- C2 (amended): on every store whose reference graph is acyclic — as
witnessed by a rank function that drops across each dereference — and
whose entries are not bare numbers, `parseMovieDetailPage.resolveValue`
terminates and its output contains no dereferenceable integer reference;
but on malformed cyclic input (store `[[0]]`) both resolvers recurse
without bound, since the code has no depth limit and no cycle check. -/
theorem c2_amended :
    (∀ (data : List JsonValue) (v : JsonValue) (r : Int → Nat),
      (∀ (k : Nat) (hk : k < data.length),
        ∀ j ∈ refsV (mdpHit data) (mdpHit data) (data.get ⟨k, hk⟩), r j < r (k : Int)) →
      (∀ (k : Nat) (hk : k < data.length), isNumV (data.get ⟨k, hk⟩) = false) →
      ∃ (fuel : Nat) (w : JsonValue), resolveValueMDP data fuel v = some w ∧
        refsV (mdpHit data) (mdpHit data) w = []) ∧
    (∀ fuel, resolveValueMDP [.arr [.num 0]] fuel (.arr [.num 0]) = none) ∧
    (∀ fuel, resolveValueDM [.arr [.num 0]] fuel (.arr [.num 0]) = none) := by
  refine ⟨?_, ?_, ?_⟩
  · intro data v r hr hstore
    have hBbound : ∀ j ∈ refsV (mdpHit data) (mdpHit data) v,
        r j < 1 + ((refsV (mdpHit data) (mdpHit data) v).map r).foldr max 0 :=
      fun j hj => lt_succ_foldr_max (List.mem_map_of_mem r hj)
    obtain ⟨w, hw⟩ := resolveG_terminates (mdpHit data) (mdpHit data) data r hr
      (sizeJ v +
        (1 + ((refsV (mdpHit data) (mdpHit data) v).map r).foldr max 0) *
          (maxEntrySize data + 1))
      v _ hBbound le_rfl
    exact ⟨_, w, hw, resolveG_no_refs (mdpHit data) (mdpHit data) data hstore _ v w hw⟩
  · exact resolveG_cyclic _ _ (by decide)
  · exact resolveG_cyclic _ _ rfl

/-! ### JavaScript string primitives

JS string algorithms are modelled on `List Char` with plain structural
recursion (`String.splitOn`/`String.trim` from core are implemented on
byte positions and do not reduce in the kernel). -/

/-- `str.split(c)` for a single-character separator: always returns at
least one piece; adjacent separators yield empty pieces. -/
def splitOnCharL (c : Char) : List Char → List (List Char)
  | [] => [[]]
  | x :: xs =>
    match splitOnCharL c xs with
    | [] => [[]]
    | p :: ps => if x = c then [] :: p :: ps else (x :: p) :: ps

/-- `str.trim()`: strip whitespace from both ends. -/
def trimChars (cs : List Char) : List Char :=
  ((cs.dropWhile Char.isWhitespace).reverse.dropWhile Char.isWhitespace).reverse

/-- `arr.join(sep)`. -/
def intercalateChars (sep : List Char) : List (List Char) → List Char
  | [] => []
  | [x] => x
  | x :: y :: xs => x ++ sep ++ intercalateChars sep (y :: xs)

/-- JS string truthiness / `str === ''` test, on a Lean `String`. -/
def jsEmpty (s : String) : Bool := s.data.isEmpty

/-- `str.trim()` on a Lean `String`. -/
def jsTrim (s : String) : String := ⟨trimChars s.data⟩

lemma jsEmpty_iff (s : String) : jsEmpty s = true ↔ s = "" := by
  cases s with
  | mk d =>
    unfold jsEmpty
    cases d with
    | nil => simp
    | cons x xs =>
      simp only [List.isEmpty_cons]
      constructor
      · intro h; exact absurd h (by simp)
      · intro h; exact absurd h (by simp [String.ext_iff])

/-! ### Dispatcher, header construction and session-cookie store
(`backend/utils/proxy.js`, `backend/utils/headers.js`) -/

/-- `SELECTED_HOST` with the default host from `config/constants.js`
(no `MOVIEBOX_API_HOST` override). -/
def SELECTED_HOST : String := "https://h5.aoneroom.com"

/-- `HOST_URL`: `SELECTED_HOST` with a trailing slash ensured. -/
def HOST_URL : String := "https://h5.aoneroom.com/"

/-- `SELECTED_HOST.replace(/^https?:\/\//, '')`. -/
def selectedHostBare : String := "h5.aoneroom.com"

/-- `getDefaultHeaders()` from `backend/utils/headers.js` (insertion
order of the JS object literal). -/
def getDefaultHeaders : List (String × String) :=
  [("accept", "application/json"),
   ("accept-language", "en-US, en;q=0.5"),
   ("user-agent", "mozilla/5.0aoneroom.com/"),
   ("referer", HOST_URL),
   ("Host", selectedHostBare),
   ("X-client-info", "\x7b\"timezone\":\"Africa/Nairobi\"\x7d")]

/-- Case-sensitive key lookup, as JS property access does. -/
def hasKey (k : String) (hs : List (String × String)) : Bool :=
  hs.any (fun p => p.1 == k)

/-- JS truthiness of a nullable string: `null` and `""` are falsy. -/
def jsTruthyStr : Option String → Bool
  | none => false
  | some s => !jsEmpty s

/-- JS property read `obj[k]` on the insertion-ordered pair list: the
last write to a key wins, an absent key reads as `undefined` (`none`). -/
def lookupS (k : String) (hs : List (String × String)) : Option String :=
  hs.foldl (fun acc p => if p.1 == k then some p.2 else acc) none

/-- JS property assignment `obj[k] = v`: overwrites the value stored at
an existing key in place, otherwise adds the key at the end. -/
def upsertS (hs : List (String × String)) (k v : String) : List (String × String) :=
  if hasKey k hs then hs.map (fun p => if p.1 == k then (k, v) else p)
  else hs ++ [(k, v)]

/-- First half of `makeRequest`'s header construction (proxy.js lines
149–162): custom headers, when any are supplied, are used directly
(defaults are not merged), and `requestHeaders['Host'] = host` runs when
both the `Host` and `host` property reads are falsy (absent or empty
string) — so an empty caller-supplied `Host` value is overwritten.
Otherwise the defaults are used. -/
def baseHeaders (extra : List (String × String)) : List (String × String) :=
  if extra.isEmpty then getDefaultHeaders
  else if jsTruthyStr (lookupS "Host" extra) || jsTruthyStr (lookupS "host" extra) then extra
  else upsertS extra "Host" selectedHostBare

/-- Second half (proxy.js lines 164–168): `requestHeaders['Cookie'] =
globalCookies` runs when the session cookie is truthy and both the
`Cookie` and `cookie` property reads are falsy (absent or empty string)
— so an empty caller-supplied `Cookie` value is overwritten. -/
def withCookie (globalCookies : Option String) (rh : List (String × String)) :
    List (String × String) :=
  match globalCookies with
  | some c =>
    if !jsEmpty c && !jsTruthyStr (lookupS "Cookie" rh) && !jsTruthyStr (lookupS "cookie" rh)
    then upsertS rh "Cookie" c
    else rh
  | none => rh

/-- Full header construction of `makeRequest`. -/
def buildRequestHeaders (extra : List (String × String)) (globalCookies : Option String) :
    List (String × String) :=
  withCookie globalCookies (baseHeaders extra)

lemma hasKey_append (k : String) (a b : List (String × String)) :
    hasKey k (a ++ b) = (hasKey k a || hasKey k b) := List.any_append

lemma hasKey_singleton {k n v : String} (h : hasKey k [(n, v)] = true) : k = n := by
  simp [hasKey] at h
  exact h.symm

lemma hasKey_upsertS_of {j : String} {hs : List (String × String)} (k v : String)
    (h : hasKey j hs = true) : hasKey j (upsertS hs k v) = true := by
  unfold upsertS
  split
  · simp only [hasKey, List.any_eq_true, beq_iff_eq] at h
    obtain ⟨p, hp, hpj⟩ := h
    simp only [hasKey, List.any_eq_true, List.mem_map, beq_iff_eq]
    by_cases hk : p.1 = k
    · exact ⟨(k, v), ⟨p, hp, by simp [hk]⟩, by rw [← hk]; exact hpj⟩
    · exact ⟨p, ⟨p, hp, by simp [hk]⟩, hpj⟩
  · rw [hasKey_append, h]; rfl

lemma hasKey_upsertS {j k v : String} {hs : List (String × String)}
    (h : hasKey j (upsertS hs k v) = true) : hasKey j hs = true ∨ j = k := by
  unfold upsertS at h
  split at h
  · simp only [hasKey, List.any_eq_true, List.mem_map, beq_iff_eq] at h
    obtain ⟨q, ⟨p, hp, hq⟩, hqj⟩ := h
    subst hq
    by_cases hk : p.1 = k
    · simp [hk] at hqj
      exact Or.inr hqj.symm
    · simp [hk] at hqj
      exact Or.inl (by simp only [hasKey, List.any_eq_true, beq_iff_eq]; exact ⟨p, hp, hqj⟩)
  · rw [hasKey_append] at h
    rcases Bool.or_eq_true_iff.mp h with h1 | h1
    · exact Or.inl h1
    · exact Or.inr (hasKey_singleton h1)

lemma mem_upsertS_of_ne {p : String × String} {hs : List (String × String)} {k : String}
    (v : String) (h : p ∈ hs) (hne : p.1 ≠ k) : p ∈ upsertS hs k v := by
  unfold upsertS
  split
  · exact List.mem_map.mpr ⟨p, h, by simp [hne]⟩
  · exact List.mem_append_left _ h

lemma mem_upsertS_self (hs : List (String × String)) (k v : String) :
    (k, v) ∈ upsertS hs k v := by
  unfold upsertS
  split
  · rename_i hk
    simp only [hasKey, List.any_eq_true, beq_iff_eq] at hk
    obtain ⟨p, hp, hpk⟩ := hk
    exact List.mem_map.mpr ⟨p, hp, by simp [hpk]⟩
  · exact List.mem_append_right _ (List.mem_singleton.mpr rfl)

lemma hasKey_withCookie_of {k : String} (gc : Option String) {rh : List (String × String)}
    (h : hasKey k rh = true) : hasKey k (withCookie gc rh) = true := by
  unfold withCookie
  cases gc with
  | none => exact h
  | some c =>
    dsimp only
    split
    · exact hasKey_upsertS_of _ _ h
    · exact h

lemma hasKey_withCookie {k : String} {gc : Option String} {rh : List (String × String)}
    (h : hasKey k (withCookie gc rh) = true) : hasKey k rh = true ∨ k = "Cookie" := by
  unfold withCookie at h
  cases gc with
  | none => exact Or.inl h
  | some c =>
    dsimp only at h
    split at h
    · exact hasKey_upsertS h
    · exact Or.inl h

lemma mem_withCookie_of_ne {p : String × String} (gc : Option String)
    {rh : List (String × String)} (h : p ∈ rh) (hne : p.1 ≠ "Cookie") :
    p ∈ withCookie gc rh := by
  unfold withCookie
  cases gc with
  | none => exact h
  | some c =>
    dsimp only
    split
    · exact mem_upsertS_of_ne _ h hne
    · exact h

/-- C3 counterexample: with caller-supplied extra headers
`[("Accept", "text/html")]`, the outgoing request does not carry the
default `user-agent` header, although the caller did not override that
name — the defaults are dropped, not merged. -/
theorem c3_counterexample :
    hasKey "user-agent" (buildRequestHeaders [("Accept", "text/html")] none) = false ∧
      hasKey "user-agent" getDefaultHeaders = true := by
  constructor <;> decide

/-- C3 (amended): when no extra headers are supplied the outgoing
request carries exactly the default fingerprint headers (plus the
session cookie when available); when extra headers are supplied they are
used directly without merging the defaults — every outgoing header name
is caller-supplied, or `Host`, or `Cookie`.  Caller-supplied pairs named
neither `Host` nor `Cookie` are preserved verbatim; the `Host`/`Cookie`
guards test value truthiness, so when both the `Host` and `host` reads
on the extras are falsy (absent or empty) the `Host` property is
(over)written with the selected mirror host, and when the session cookie
is non-empty and both the `Cookie` and `cookie` reads on the headers
built so far are falsy the `Cookie` property is (over)written with the
session cookie. -/
theorem c3_amended :
    (∀ (gc : Option String) (k : String), hasKey k getDefaultHeaders = true →
      hasKey k (buildRequestHeaders [] gc) = true) ∧
    (∀ (extra : List (String × String)) (gc : Option String) (k : String),
      extra ≠ [] → hasKey k (buildRequestHeaders extra gc) = true →
      hasKey k extra = true ∨ k = "Host" ∨ k = "Cookie") ∧
    (∀ (extra : List (String × String)) (gc : Option String) (p : String × String),
      p ∈ extra → p.1 ≠ "Host" → p.1 ≠ "Cookie" → p ∈ buildRequestHeaders extra gc) ∧
    (∀ (extra : List (String × String)) (gc : Option String),
      extra ≠ [] → jsTruthyStr (lookupS "Host" extra) = false →
      jsTruthyStr (lookupS "host" extra) = false →
      ("Host", selectedHostBare) ∈ buildRequestHeaders extra gc) ∧
    (∀ (extra : List (String × String)) (c : String),
      jsEmpty c = false → jsTruthyStr (lookupS "Cookie" (baseHeaders extra)) = false →
      jsTruthyStr (lookupS "cookie" (baseHeaders extra)) = false →
      ("Cookie", c) ∈ buildRequestHeaders extra (some c)) := by
  refine ⟨?_, ?_, ?_, ?_, ?_⟩
  · intro gc k hk
    apply hasKey_withCookie_of
    unfold baseHeaders
    simpa using hk
  · intro extra gc k hne hk
    have hext : extra.isEmpty = false := by
      cases extra with
      | nil => exact absurd rfl hne
      | cons p ps => rfl
    rcases hasKey_withCookie hk with hbase | hck
    · unfold baseHeaders at hbase
      rw [hext] at hbase
      simp only [Bool.false_eq_true, if_false] at hbase
      split at hbase
      · exact Or.inl hbase
      · rcases hasKey_upsertS hbase with h | h
        · exact Or.inl h
        · exact Or.inr (Or.inl h)
    · exact Or.inr (Or.inr hck)
  · intro extra gc p hp hph hpc
    have hext : extra.isEmpty = false := by
      cases extra with
      | nil => cases hp
      | cons q qs => rfl
    refine mem_withCookie_of_ne gc ?_ hpc
    unfold baseHeaders
    rw [hext]
    simp only [Bool.false_eq_true, if_false]
    split
    · exact hp
    · exact mem_upsertS_of_ne _ hp hph
  · intro extra gc hne hH hh
    have hext : extra.isEmpty = false := by
      cases extra with
      | nil => exact absurd rfl hne
      | cons p ps => rfl
    refine mem_withCookie_of_ne gc ?_ (by decide)
    unfold baseHeaders
    rw [hext]
    simp only [Bool.false_eq_true, if_false]
    rw [if_neg (by simp [hH, hh])]
    exact mem_upsertS_self extra "Host" selectedHostBare
  · intro extra c hc hC hc2
    unfold buildRequestHeaders withCookie
    dsimp only
    rw [if_pos (by simp [hc, hC, hc2])]
    exact mem_upsertS_self _ _ _

/-- C3 witness: the amended statement at concrete inputs — the default
profile survives when no extras are given; with extras every header is
caller-supplied or `Host`/`Cookie` and a non-`Host`/`Cookie` pair is
kept; an empty caller-supplied `Host` is overwritten with the mirror
host; and the session cookie is written when the `Cookie` reads are
falsy. -/
theorem c3_amended_witness :
    hasKey "user-agent" (buildRequestHeaders [] none) = true ∧
      (hasKey "Accept" [("Accept", "text/html")] = true ∨ ("Accept" : String) = "Host" ∨
        ("Accept" : String) = "Cookie") ∧
      ("Accept", "text/html") ∈ buildRequestHeaders [("Accept", "text/html")] (some "a=1") ∧
      ("Host", selectedHostBare) ∈ buildRequestHeaders [("Host", "")] (some "a=1") ∧
      ("Cookie", "a=1") ∈ buildRequestHeaders [("Accept", "text/html")] (some "a=1") :=
  ⟨c3_amended.1 none "user-agent" (by decide),
   c3_amended.2.1 [("Accept", "text/html")] (some "a=1") "Accept" (by simp) (by decide),
   c3_amended.2.2.1 [("Accept", "text/html")] (some "a=1") ("Accept", "text/html")
     (by simp) (by decide) (by decide),
   c3_amended.2.2.2.1 [("Host", "")] (some "a=1") (by simp) (by decide) (by decide),
   c3_amended.2.2.2.2 [("Accept", "text/html")] "a=1" (by decide) (by decide) (by decide)⟩

/-- Outcome of one upstream attempt against one host: transport success
with a payload, an HTTP error response carrying a status, or a network
error with no response. -/
inductive UpOutcome where
  | ok (payload : Nat)
  | httpErr (status : Nat)
  | netErr
deriving DecidableEq

/-- The error recorded in `lastError` for a failed attempt. -/
inductive ErrKind where
  | status (n : Nat)
  | net
deriving DecidableEq

/-- Result of the `makeRequest` retry loop: a successful payload, or the
final thrown error (`none` models `new Error('Request failed after all
retries')` for an empty schedule). -/
inductive DispatchResult where
  | success (payload : Nat)
  | failure (last : Option ErrKind)
deriving DecidableEq

/-- The `attempt × host` iteration order of the nested loops in
`makeRequest` (proxy.js lines 175–278): all hosts in pool order within
attempt 0, then attempt 1, and so on up to `retries`. -/
def schedule (retries : Nat) (hosts : List Nat) : List (Nat × Nat) :=
  (List.range (retries + 1)).bind (fun a => hosts.map (fun h => (a, h)))

/-- An outcome that makes the loop go on to the next host: any failure
whose status is not 404/403. -/
def isContinue : UpOutcome → Bool
  | .httpErr s => !(s == 404 || s == 403)
  | .netErr => true
  | .ok _ => false

/-- `lastError` update across a run of continue-outcomes. -/
def lastErrAfter (respond : Nat → Nat → UpOutcome) (pairs : List (Nat × Nat))
    (last : Option ErrKind) : Option ErrKind :=
  pairs.foldl
    (fun acc p =>
      match respond p.1 p.2 with
      | .ok _ => acc
      | .httpErr s => some (.status s)
      | .netErr => some .net)
    last

/-- Body of the `makeRequest` retry loop over the flattened schedule,
threading `lastError`: return on transport success; throw immediately on
a 404/403 response; otherwise record the error and continue; after the
schedule is exhausted, throw the last recorded error.  Also returns the
list of `(attempt, host)` pairs actually tried, in order. -/
def goDispatch (respond : Nat → Nat → UpOutcome) :
    List (Nat × Nat) → Option ErrKind → DispatchResult × List (Nat × Nat)
  | [], last => (.failure last, [])
  | (a, h) :: rest, last =>
    match respond a h with
    | .ok p => (.success p, [(a, h)])
    | .httpErr s =>
      if s == 404 || s == 403 then (.failure (some (.status s)), [(a, h)])
      else
        let r := goDispatch respond rest (some (.status s))
        (r.1, (a, h) :: r.2)
    | .netErr =>
      let r := goDispatch respond rest (some .net)
      (r.1, (a, h) :: r.2)

/-- The `makeRequest` retry loop of proxy.js. -/
def makeRequestModel (respond : Nat → Nat → UpOutcome) (retries : Nat) (hosts : List Nat) :
    DispatchResult × List (Nat × Nat) :=
  goDispatch respond (schedule retries hosts) none

lemma goDispatch_append (respond : Nat → Nat → UpOutcome) (pre rest : List (Nat × Nat))
    (last : Option ErrKind) (hpre : ∀ p ∈ pre, isContinue (respond p.1 p.2) = true) :
    goDispatch respond (pre ++ rest) last =
      ((goDispatch respond rest (lastErrAfter respond pre last)).1,
        pre ++ (goDispatch respond rest (lastErrAfter respond pre last)).2) := by
  induction pre generalizing last with
  | nil => simp [lastErrAfter]
  | cons p ps ih =>
    obtain ⟨a, h⟩ := p
    have hc := hpre (a, h) (List.mem_cons_self _ _)
    simp only [List.cons_append, goDispatch]
    cases hro : respond a h with
    | ok pl => rw [hro] at hc; exact absurd hc (by simp [isContinue])
    | httpErr s =>
      rw [hro] at hc
      have hs : (s == 404 || s == 403) = false := by
        simp only [isContinue] at hc
        cases hb : (s == 404 || s == 403) with
        | false => rfl
        | true => rw [hb] at hc; exact absurd hc (by simp)
      dsimp only
      rw [hs]
      simp only [Bool.false_eq_true, if_false, List.append_eq]
      rw [ih (some (.status s)) (fun q hq => hpre q (List.mem_cons_of_mem _ hq))]
      have hlast : lastErrAfter respond ((a, h) :: ps) last =
          lastErrAfter respond ps (some (.status s)) := by
        simp [lastErrAfter, hro]
      rw [hlast]
    | netErr =>
      dsimp only
      simp only [List.append_eq]
      rw [ih (some .net) (fun q hq => hpre q (List.mem_cons_of_mem _ hq))]
      have hlast : lastErrAfter respond ((a, h) :: ps) last =
          lastErrAfter respond ps (some .net) := by
        simp [lastErrAfter, hro]
      rw [hlast]

/-- C6: fatal-abort and failover semantics of the `makeRequest` retry
loop.  (a) If the schedule reaches a host whose response is an HTTP 404
or 403 after a run of retriable failures, the dispatcher stops exactly
there — no remaining host or attempt is tried — and surfaces that
error.  (b) If every scheduled attempt fails retriably, every host is
tried in pool order within each attempt and the dispatcher fails with
the last observed error. -/
theorem c6_dispatch_failover :
    (∀ (respond : Nat → Nat → UpOutcome) (retries : Nat) (hosts : List Nat)
        (pre post : List (Nat × Nat)) (a h s : Nat),
      schedule retries hosts = pre ++ (a, h) :: post →
      (∀ p ∈ pre, isContinue (respond p.1 p.2) = true) →
      respond a h = .httpErr s → (s = 404 ∨ s = 403) →
      makeRequestModel respond retries hosts =
        (.failure (some (.status s)), pre ++ [(a, h)])) ∧
    (∀ (respond : Nat → Nat → UpOutcome) (retries : Nat) (hosts : List Nat),
      (∀ p ∈ schedule retries hosts, isContinue (respond p.1 p.2) = true) →
      makeRequestModel respond retries hosts =
        (.failure (lastErrAfter respond (schedule retries hosts) none),
          schedule retries hosts)) := by
  constructor
  · intro respond retries hosts pre post a h s hsched hpre hresp hs
    unfold makeRequestModel
    rw [hsched, goDispatch_append respond pre _ none hpre]
    have hfatal : (s == 404 || s == 403) = true := by
      rcases hs with h1 | h1 <;> subst h1 <;> rfl
    simp only [goDispatch, hresp, hfatal, if_true]
  · intro respond retries hosts hall
    unfold makeRequestModel
    have := goDispatch_append respond (schedule retries hosts) [] none hall
    rw [List.append_nil] at this
    rw [this]
    simp [goDispatch]

/-- Host-response schedule for the C6 witness: host 0 times out, host 1
answers 404, anything later would succeed. -/
def respondW : Nat → Nat → UpOutcome := fun a h =>
  if a = 0 ∧ h = 0 then .netErr else if a = 0 ∧ h = 1 then .httpErr 404 else .ok 7

/-- C6 witness: with hosts `[0, 1]` and one retry allowed, a timeout on
host 0 followed by a 404 on host 1 makes the dispatcher stop after
exactly those two tries and surface the 404, although two further
scheduled tries would have succeeded. -/
theorem c6_dispatch_failover_witness :
    makeRequestModel respondW 1 [0, 1] =
      (.failure (some (.status 404)), [(0, 0), (0, 1)]) :=
  c6_dispatch_failover.1 respondW 1 [0, 1] [(0, 0)] [(1, 0), (1, 1)] 0 1 404
    (by decide) (by decide) (by decide) (Or.inl rfl)

/-- Module state of proxy.js: `cookiesInitialized` and `globalCookies`. -/
structure CookieState where
  initFlag : Bool
  cookies : Option String
deriving DecidableEq

/-- What the dynamic cookie fetch against the app-info endpoint did:
responded with a `set-cookie` array, responded without one, or threw. -/
inductive FetchOutcome where
  | okWithCookies (setCookies : List String)
  | okNoCookies
  | fetchFailed
deriving DecidableEq

/-- `cookie.split(';')[0].trim()` applied to one `Set-Cookie` header. -/
def cookieHeadPart (s : String) : String :=
  ⟨trimChars ((splitOnCharL ';' s.data).headD [])⟩

/-- Join of the extracted name=value parts with `'; '`. -/
def joinSetCookies (hs : List String) : String :=
  ⟨intercalateChars "; ".data (hs.map (fun s => (cookieHeadPart s).data))⟩

/-- The fallback branch of `ensureCookiesAreAssigned` (proxy.js lines
39–74): fetch the app-info endpoint; on a `set-cookie` array, store and
return the joined cookies; otherwise mark initialized and return null.
The `Bool` component records that a network request was made. -/
def ensureFetch (st : CookieState) (outcome : FetchOutcome) :
    CookieState × Option String × Bool :=
  match outcome with
  | .okWithCookies hs =>
    (⟨true, some (joinSetCookies hs)⟩, some (joinSetCookies hs), true)
  | .okNoCookies => (⟨true, st.cookies⟩, none, true)
  | .fetchFailed => (⟨true, st.cookies⟩, none, true)

/-- `ensureCookiesAreAssigned` (proxy.js lines 19–75): return the cached
cookies when initialized and truthy; else take `MB_COOKIES` from the
environment when truthy after trimming; else fall back to the dynamic
fetch.  Returns (new state, returned cookie string, network used). -/
def ensureCookiesAreAssigned (st : CookieState) (env : Option String)
    (outcome : FetchOutcome) : CookieState × Option String × Bool :=
  if st.initFlag && jsTruthyStr st.cookies then (st, st.cookies, false)
  else
    match env with
    | some mb =>
      if !jsEmpty mb && !jsEmpty (jsTrim mb) then
        (⟨true, some (jsTrim mb)⟩, some (jsTrim mb), false)
      else ensureFetch st outcome
    | none => ensureFetch st outcome

/-- The cookie-initialization guard of `makeRequest` (proxy.js lines
141–143): initialization runs only when not skipped and the
`cookiesInitialized` flag is still unset. -/
def triggersInit (st : CookieState) (skipCookieInit : Bool) : Bool :=
  !skipCookieInit && !st.initFlag

lemma ensure_cached {st : CookieState} (env : Option String) (outcome : FetchOutcome)
    (hguard : (st.initFlag && jsTruthyStr st.cookies) = true) :
    ensureCookiesAreAssigned st env outcome = (st, st.cookies, false) := by
  unfold ensureCookiesAreAssigned
  rw [if_pos hguard]

lemma ensure_not_cached {st : CookieState} (env : Option String) (outcome : FetchOutcome)
    (hguard : ¬(st.initFlag && jsTruthyStr st.cookies) = true) :
    ensureCookiesAreAssigned st env outcome =
      (match env with
       | some mb =>
         if !jsEmpty mb && !jsEmpty (jsTrim mb) then
           (⟨true, some (jsTrim mb)⟩, some (jsTrim mb), false)
         else ensureFetch st outcome
       | none => ensureFetch st outcome) := by
  unfold ensureCookiesAreAssigned
  rw [if_neg hguard]

lemma ensure_initFlag (st : CookieState) (env : Option String) (outcome : FetchOutcome) :
    (ensureCookiesAreAssigned st env outcome).1.initFlag = true := by
  by_cases hguard : (st.initFlag && jsTruthyStr st.cookies) = true
  · rw [ensure_cached env outcome hguard]
    simp only [Bool.and_eq_true] at hguard
    exact hguard.1
  · rw [ensure_not_cached env outcome hguard]
    cases env with
    | none => cases outcome <;> rfl
    | some mb =>
      dsimp only
      by_cases hmb : (!jsEmpty mb && !jsEmpty (jsTrim mb)) = true
      · rw [if_pos hmb]
      · rw [if_neg hmb]
        cases outcome <;> rfl

lemma ensure_result_state {st : CookieState} {env : Option String} {outcome : FetchOutcome}
    {c : String} (h : (ensureCookiesAreAssigned st env outcome).2.1 = some c) :
    (ensureCookiesAreAssigned st env outcome).1.initFlag = true ∧
      (ensureCookiesAreAssigned st env outcome).1.cookies = some c := by
  refine ⟨ensure_initFlag st env outcome, ?_⟩
  by_cases hguard : (st.initFlag && jsTruthyStr st.cookies) = true
  · rw [ensure_cached env outcome hguard] at h ⊢
    exact h
  · rw [ensure_not_cached env outcome hguard] at h ⊢
    cases env with
    | none =>
      cases outcome with
      | okWithCookies hs =>
        simp only [ensureFetch] at h ⊢
        exact h
      | okNoCookies => exact absurd h (by simp [ensureFetch])
      | fetchFailed => exact absurd h (by simp [ensureFetch])
    | some mb =>
      dsimp only at h ⊢
      by_cases hmb : (!jsEmpty mb && !jsEmpty (jsTrim mb)) = true
      · rw [if_pos hmb] at h ⊢
        exact h
      · rw [if_neg hmb] at h ⊢
        cases outcome with
        | okWithCookies hs =>
          simp only [ensureFetch] at h ⊢
          exact h
        | okNoCookies => exact absurd h (by simp [ensureFetch])
        | fetchFailed => exact absurd h (by simp [ensureFetch])

/-- C10 counterexample: the claim promises that after a completed call
returning a non-null cookie string, every later call returns that same
string with no network request.  A response whose `set-cookie` array
joins to the empty string completes with the non-null string `""`; the
truthiness guard `cookiesInitialized && globalCookies` then fails, so
the next call performs another network fetch and returns different
cookies. -/
theorem c10_counterexample :
    (ensureCookiesAreAssigned ⟨false, none⟩ none (.okWithCookies [""])).2.1 = some "" ∧
    (ensureCookiesAreAssigned
        (ensureCookiesAreAssigned ⟨false, none⟩ none (.okWithCookies [""])).1
        none (.okWithCookies ["x=1"])).2.2 = true ∧
    (ensureCookiesAreAssigned
        (ensureCookiesAreAssigned ⟨false, none⟩ none (.okWithCookies [""])).1
        none (.okWithCookies ["x=1"])).2.1 ≠ some "" := by
  refine ⟨?_, ?_, ?_⟩ <;> decide

/-- C10 (amended): after `ensureCookiesAreAssigned` completes with a
non-null, non-empty cookie string, every later call returns that same
string with no network request and leaves the state unchanged; after any
completed call the initialized flag is set, so `makeRequest` never
triggers initialization again; and while `globalCookies` is null, no
dispatched request carries a session `Cookie` header beyond what the
caller supplied. -/
theorem c10_amended :
    (∀ (st : CookieState) (env : Option String) (outcome : FetchOutcome) (c : String),
      (ensureCookiesAreAssigned st env outcome).2.1 = some c → c ≠ "" →
      ∀ (env' : Option String) (outcome' : FetchOutcome),
        ensureCookiesAreAssigned (ensureCookiesAreAssigned st env outcome).1 env' outcome' =
          ((ensureCookiesAreAssigned st env outcome).1, some c, false)) ∧
    (∀ (st : CookieState) (env : Option String) (outcome : FetchOutcome),
      ((ensureCookiesAreAssigned st env outcome).1).initFlag = true) ∧
    (∀ (st : CookieState) (env : Option String) (outcome : FetchOutcome) (skip : Bool),
      triggersInit (ensureCookiesAreAssigned st env outcome).1 skip = false) ∧
    (∀ (extra : List (String × String)),
      hasKey "Cookie" (buildRequestHeaders extra none) = true →
      hasKey "Cookie" extra = true) := by
  refine ⟨?_, ?_, ?_, ?_⟩
  · intro st env outcome c hres hc env' outcome'
    obtain ⟨hflag, hcook⟩ := ensure_result_state hres
    generalize hst : (ensureCookiesAreAssigned st env outcome).1 = stp at hflag hcook ⊢
    have hemp : jsEmpty c = false := by
      cases he : jsEmpty c
      · rfl
      · exact absurd ((jsEmpty_iff c).mp he) hc
    have hcond : (stp.initFlag && jsTruthyStr stp.cookies) = true := by
      rw [hflag, hcook]
      simp [jsTruthyStr, hemp]
    unfold ensureCookiesAreAssigned
    rw [if_pos hcond, hcook]
  · intro st env outcome
    exact ensure_initFlag st env outcome
  · intro st env outcome skip
    simp [triggersInit, ensure_initFlag st env outcome]
  · intro extra h
    have hb : buildRequestHeaders extra none = baseHeaders extra := rfl
    rw [hb] at h
    unfold baseHeaders at h
    split at h
    · exact absurd h (by decide)
    · split at h
      · exact h
      · rcases hasKey_upsertS h with h2 | h2
        · exact h2
        · exact absurd h2 (by decide)

/-- C10 witness: a first call that completes with the non-empty string
`"tok=1"` from `MB_COOKIES` makes every later call return the same
string with no network request, and `makeRequest` never re-triggers
initialization. -/
theorem c10_amended_witness :
    ensureCookiesAreAssigned
        (ensureCookiesAreAssigned ⟨false, none⟩ (some "tok=1") .fetchFailed).1
        none .okNoCookies =
      ((ensureCookiesAreAssigned ⟨false, none⟩ (some "tok=1") .fetchFailed).1,
        some "tok=1", false) ∧
      triggersInit (ensureCookiesAreAssigned ⟨false, none⟩ (some "tok=1") .fetchFailed).1
        false = false :=
  ⟨c10_amended.1 ⟨false, none⟩ (some "tok=1") .fetchFailed "tok=1" (by decide) (by decide)
      none .okNoCookies,
    c10_amended.2.2.1 ⟨false, none⟩ (some "tok=1") .fetchFailed false⟩

/-! ### Download-candidate filter
(`GET /wefeed-h5-bff/web/subject/download` handler, downloads filter) -/

/-- The `resource` sub-object of a download entry. -/
structure DlResource where
  hasResource : Option Bool
  url : Option String
deriving DecidableEq

/-- One entry of the upstream `downloads` array (fields the filter
reads). -/
structure DownloadItem where
  resource : Option DlResource
  url : Option String
deriving DecidableEq

/-- `download.resource?.hasResource !== false`: true unless the resource
exists and its flag is literally `false`. -/
def hasResourceFlag (d : DownloadItem) : Bool :=
  match d.resource with
  | some r => !(r.hasResource == some false)
  | none => true

/-- `!!download.resource?.url`. -/
def hasResourceUrl (d : DownloadItem) : Bool :=
  match d.resource with
  | some r => jsTruthyStr r.url
  | none => false

/-- `!!download.url`. -/
def hasDirectUrl (d : DownloadItem) : Bool := jsTruthyStr d.url

/-- `hasValidUrl = hasResourceUrl || hasDirectUrl`. -/
def hasValidUrl (d : DownloadItem) : Bool := hasResourceUrl d || hasDirectUrl d

/-- The filter predicate `isValid` of the download-metadata route:
`hasValidUrl && (hasResourceFlag || hasDirectUrl)`. -/
def isValidDownload (d : DownloadItem) : Bool :=
  hasValidUrl d && (hasResourceFlag d || hasDirectUrl d)

/-- `allDownloads.filter(...)` of the download-metadata route. -/
def filterDownloads (ds : List DownloadItem) : List DownloadItem :=
  ds.filter isValidDownload

/-- C4 counterexample: a candidate whose only URL is a non-empty
resource URL but whose availability flag is literally `false` carries a
non-empty URL, yet the filter excludes it — contradicting the claim that
every candidate with a non-empty URL is included even when its
availability flag is false. -/
theorem c4_counterexample :
    hasValidUrl ⟨some ⟨some false, some "http://cdn/video.mp4"⟩, none⟩ = true ∧
      filterDownloads [⟨some ⟨some false, some "http://cdn/video.mp4"⟩, none⟩] = [] := by
  constructor <;> decide

/-- C4 (amended): the final candidate list keeps exactly the candidates
with a non-empty URL whose availability flag is not literally false or
that carry a non-empty direct URL.  In particular every empty-URL
candidate is excluded regardless of its flag, a flag-false candidate
with a direct URL is still included, but a flag-false candidate whose
only URL is the resource URL is excluded. -/
theorem c4_amended :
    ∀ (ds : List DownloadItem) (d : DownloadItem),
      d ∈ filterDownloads ds ↔
        d ∈ ds ∧ hasValidUrl d = true ∧
          (hasResourceFlag d = true ∨ hasDirectUrl d = true) := by
  intro ds d
  simp [filterDownloads, List.mem_filter, isValidDownload, Bool.and_eq_true,
    Bool.or_eq_true, and_assoc]

/-- C4 witness: a flag-false candidate carrying a non-empty direct URL
is kept by the filter. -/
theorem c4_amended_witness :
    (⟨some ⟨some false, none⟩, some "http://cdn/direct.mp4"⟩ : DownloadItem) ∈
      filterDownloads [⟨some ⟨some false, none⟩, some "http://cdn/direct.mp4"⟩] :=
  (c4_amended [⟨some ⟨some false, none⟩, some "http://cdn/direct.mp4"⟩]
      ⟨some ⟨some false, none⟩, some "http://cdn/direct.mp4"⟩).mpr
    ⟨by decide, by decide, Or.inr (by decide)⟩

/-! ### Substring search and the CORS origin gate -/

/-- Prefix test on character lists (`leadsWith needle hay`). -/
def leadsWith : List Char → List Char → Bool
  | [], _ => true
  | _ :: _, [] => false
  | x :: xs, y :: ys => (x == y) && leadsWith xs ys

/-- Substring test on character lists: does `needle` occur anywhere in
`hay`? -/
def containsSeq (needle : List Char) : List Char → Bool
  | [] => needle.isEmpty
  | c :: tl => leadsWith needle (c :: tl) || containsSeq needle tl

/-- JS `hay.includes(needle)`. -/
def strContains (hay needle : String) : Bool := containsSeq needle.data hay.data

/-- `origin.replace(/\/$/, '')`: drop one trailing slash if present. -/
def stripTrailingSlash (s : String) : String :=
  match s.data.reverse with
  | c :: rest => if c = '/' then ⟨rest.reverse⟩ else s
  | [] => s

/-- The CORS `origin` callback of the Express server: admit requests
with no Origin; admit origins in the normalized allowed list (or when
the list holds `"*"`); otherwise admit any origin containing
`".vercel.app"`; block the rest. -/
def corsAllow (allowedOrigins : List String) (origin : Option String) : Bool :=
  match origin with
  | none => true
  | some o =>
    let normalized := allowedOrigins.map stripTrailingSlash
    if normalized.contains (stripTrailingSlash o) || normalized.contains o ||
        allowedOrigins.contains "*" then
      true
    else if strContains o ".vercel.app" then true
    else false

/-- C9: every request whose Origin contains the substring
`".vercel.app"` anywhere is admitted by the CORS gate, whatever the
configured allowed-origins list — admission is substring containment,
not exact membership. -/
theorem c9_vercel_substring :
    ∀ (allowedOrigins : List String) (o : String),
      strContains o ".vercel.app" = true →
      corsAllow allowedOrigins (some o) = true := by
  intro allowed o h
  unfold corsAllow
  dsimp only
  split
  · rfl
  · simp [h]

/-- C9 witness: an origin that is not in the allowed list but embeds
`".vercel.app"` mid-string is admitted. -/
theorem c9_vercel_substring_witness :
    corsAllow ["http://localhost:3000"]
      (some "https://evil.example/path.vercel.app.x") = true :=
  c9_vercel_substring ["http://localhost:3000"] "https://evil.example/path.vercel.app.x"
    (by decide)

/-! ### Stream existence probe (`GET /download-proxy` HEAD validation) -/

/-- Outcome of the HEAD probe: a response with a status, or a thrown
network error (timeout, reset) with no response. -/
inductive ProbeOutcome where
  | status (n : Nat)
  | netFail
deriving DecidableEq

/-- `url.includes('sign=') || url.includes('&t=')`: the signature/expiry
marker test. -/
def hasExpiryMarker (url : String) : Bool :=
  strContains url "sign=" || strContains url "&t="

/-- What the route does with the probe outcome: reply immediately with a
status and error code, or go on to the authoritative full GET. -/
inductive ProbeAction where
  | respond (status : Nat) (errCode : String)
  | continueDownload
deriving DecidableEq

/-- The HEAD-validation logic of `GET /download-proxy`: axios resolves
for statuses < 500 (`validateStatus`), and the handler replies 404 →
not found, 403 → expired (410) or region-restricted (403) by the expiry
marker, 401 → expired (410), other 4xx → validation failed; statuses
≥ 500 throw, and the catch — like a network failure — matches none of
404/403/401, logs, and continues with the download. -/
def probeHandle (outcome : ProbeOutcome) (url : String) : ProbeAction :=
  match outcome with
  | .status n =>
    if n < 500 then
      if n = 404 then .respond 404 "not_found"
      else if n = 403 then
        if hasExpiryMarker url then .respond 410 "link_expired"
        else .respond 403 "region_restricted"
      else if n = 401 then .respond 410 "link_expired"
      else if n ≥ 400 then .respond n "validation_failed"
      else .continueDownload
    else .continueDownload
  | .netFail => .continueDownload

/-- C7: the probe maps a 404 to "not found"; a 403 to "link expired"
(HTTP 410) exactly when the URL carries a signature/expiry marker and to
"region restricted" (HTTP 403) otherwise; a 401 to "link expired"; and
every probe failure other than an explicit 4xx response (5xx responses,
network errors) is ignored, the full request being the authoritative
attempt. -/
theorem c7_probe_mapping :
    (∀ url, probeHandle (.status 404) url = .respond 404 "not_found") ∧
    (∀ url, hasExpiryMarker url = true →
      probeHandle (.status 403) url = .respond 410 "link_expired") ∧
    (∀ url, hasExpiryMarker url = false →
      probeHandle (.status 403) url = .respond 403 "region_restricted") ∧
    (∀ url, probeHandle (.status 401) url = .respond 410 "link_expired") ∧
    (∀ url (n : Nat), 500 ≤ n → probeHandle (.status n) url = .continueDownload) ∧
    (∀ url, probeHandle .netFail url = .continueDownload) := by
  refine ⟨fun url => rfl, ?_, ?_, fun url => rfl, ?_, fun url => rfl⟩
  · intro url h
    simp [probeHandle, h]
  · intro url h
    simp [probeHandle, h]
  · intro url n h
    unfold probeHandle
    dsimp only
    rw [if_neg (by omega)]

/-- C7 witness: the mapping at concrete probe outcomes and URLs, with
and without a signature marker, plus an ignored 503 probe. -/
theorem c7_probe_mapping_witness :
    probeHandle (.status 403) "https://cdn.example/v.mp4?sign=abc" =
      .respond 410 "link_expired" ∧
    probeHandle (.status 403) "https://cdn.example/v.mp4" =
      .respond 403 "region_restricted" ∧
    probeHandle (.status 503) "https://cdn.example/v.mp4" = .continueDownload :=
  ⟨c7_probe_mapping.2.1 "https://cdn.example/v.mp4?sign=abc" (by decide),
   c7_probe_mapping.2.2.1 "https://cdn.example/v.mp4" (by decide),
   c7_probe_mapping.2.2.2.2.1 "https://cdn.example/v.mp4" 503 (by decide)⟩

/-! ### Byte-range handling of `GET /download`
(`backend/routes/download.js` lines 25–82) -/

/-- `str.replace(pat, '')` for a plain first-occurrence pattern. -/
def replaceFirstSeq (pat : List Char) : List Char → List Char
  | [] => []
  | c :: tl =>
    if leadsWith pat (c :: tl) then (c :: tl).drop pat.length
    else c :: replaceFirstSeq pat tl

/-- Leading decimal digits value, `none` when there are none. -/
def digitsVal (cs : List Char) : Option Nat :=
  let ds := cs.takeWhile Char.isDigit
  if ds.isEmpty then none
  else some (ds.foldl (fun acc c => acc * 10 + (c.toNat - 48)) 0)

/-- `parseInt(str, 10)`: skip leading whitespace, optional sign, then
leading digits; `none` models `NaN`. -/
def parseIntJS (cs : List Char) : Option Int :=
  match cs.dropWhile Char.isWhitespace with
  | [] => none
  | c :: rest =>
    if c = '-' then (digitsVal rest).map (fun n => -(n : Int))
    else if c = '+' then (digitsVal rest).map (fun n => (n : Int))
    else (digitsVal (c :: rest)).map (fun n => (n : Int))

/-- Decimal rendering used by the JS template literal; `NaN` for a
failed parse. -/
def jsNumStr : Option Int → String
  | none => "NaN"
  | some i => i.repr

/-- What `GET /download` sends back to its caller. -/
structure StreamResponse where
  status : Nat
  contentRange : Option String
  contentLength : Option String
  acceptRanges : Option String
  relayedBytes : Nat
deriving DecidableEq

/-- The response assembly of `GET /download`: `upLen` is the
`content-length` header of the first upstream response (requested with
the client's Range header), `firstBytes`/`secondBytes` are the body
sizes of the first and of the re-issued ranged upstream request.  With a
truthy client Range and content-length, the route parses
`range.replace(/bytes=/,'').split('-')`, answers 206 with
`Content-Range: bytes start-end/<content-length>` and
`Content-Length: end-start+1`, and pipes the second (ranged) response;
otherwise it answers 200 and pipes the first response. -/
def downloadHandler (clientRange : Option String) (upLen : Option String)
    (firstBytes secondBytes : Nat) : StreamResponse :=
  if jsTruthyStr clientRange && jsTruthyStr upLen then
    let parts := splitOnCharL '-' (replaceFirstSeq "bytes=".data (clientRange.getD "").data)
    let startO := parseIntJS (parts.headD [])
    let endO :=
      match parts.get? 1 with
      | some p =>
        if p.isEmpty then (parseIntJS (upLen.getD "").data).map (fun v => v - 1)
        else parseIntJS p
      | none => (parseIntJS (upLen.getD "").data).map (fun v => v - 1)
    let chunk :=
      match startO, endO with
      | some s, some e => some (e - s + 1)
      | _, _ => none
    { status := 206,
      contentRange :=
        some ("bytes " ++ jsNumStr startO ++ "-" ++ jsNumStr endO ++ "/" ++ upLen.getD ""),
      contentLength := some (jsNumStr chunk),
      acceptRanges := some "bytes",
      relayedBytes := secondBytes }
  else
    { status := 200,
      contentRange := none,
      contentLength := upLen,
      acceptRanges := none,
      relayedBytes := firstBytes }

/-- C5 (code bug): for `Range: bytes=100-199` against a 1000-byte
range-honoring resource, the first upstream request already carries the
range, so its `content-length` header is `"100"` — and the route uses
that value as the *total* in `Content-Range`.  The response is 206 with
`Content-Length: 100` and exactly 100 bytes relayed, as the claim says,
but `Content-Range` is the RFC-invalid `bytes 100-199/100` instead of
the claimed `bytes 100-199/1000`. -/
theorem c5_range_divergence :
    downloadHandler (some "bytes=100-199") (some "100") 100 100 =
      { status := 206,
        contentRange := some "bytes 100-199/100",
        contentLength := some "100",
        acceptRanges := some "bytes",
        relayedBytes := 100 } ∧
      ("bytes 100-199/100" : String) ≠ "bytes 100-199/1000" := by
  constructor <;> decide

/-! ### Session-cookie merging (`mergeCookies`, proxy.js lines 84–113) -/

/-- A parsed cookie: name and value, both as character lists. -/
abbrev CookiePair := List Char × List Char

/-- The name part of a trimmed `name=value` piece: everything before the
first `=` (JS `trimmed.split('=')[0]`). -/
def cookieName (cs : List Char) : List Char := cs.takeWhile (fun c => c != '=')

/-- The value part: everything after the first `=` (JS
`valueParts.join('=')`, which restores any further `=`); empty when no
`=` occurs. -/
def cookieVal (cs : List Char) : List Char :=
  match cs.dropWhile (fun c => c != '=') with
  | [] => []
  | _ :: rest => rest

/-- JS object assignment `cookies[name] = value`: override in place,
append a fresh key at the end. -/
def upsert : List CookiePair → List Char → List Char → List CookiePair
  | [], k, v => [(k, v)]
  | (kp, vp) :: rest, k, v =>
    if kp = k then (kp, v) :: rest else (kp, vp) :: upsert rest k v

/-- One step of `parseCookies`' forEach: trim the piece, skip when empty
or when the name is empty, else assign. -/
def parseStep (acc : List CookiePair) (piece : List Char) : List CookiePair :=
  if (trimChars piece).isEmpty then acc
  else if (cookieName (trimChars piece)).isEmpty then acc
  else upsert acc (cookieName (trimChars piece)) (cookieVal (trimChars piece))

/-- `parseCookies` of proxy.js: split on `;`, trim, assign name/value
pairs into an insertion-ordered object. -/
def parsePairs (cs : List Char) : List CookiePair :=
  (splitOnCharL ';' cs).foldl parseStep []

/-- `Object.entries(merged).map(([n,v]) => n+'='+v).join('; ')`. -/
def joinPairs (m : List CookiePair) : List Char :=
  intercalateChars [';', ' '] (m.map (fun kv => kv.1 ++ '=' :: kv.2))

/-- JS object spread `{...existing, ...newCookies}`: assign every pair
of the second object into the first, in order. -/
def mergeObj (a b : List CookiePair) : List CookiePair :=
  b.foldl (fun acc kv => upsert acc kv.1 kv.2) a

/-- `mergeCookies` of proxy.js, over nullable strings (`""` and `null`
are both falsy in the early-return guards). -/
def mergeCookies (e s : Option String) : Option String :=
  if !jsTruthyStr e && !jsTruthyStr s then none
  else if !jsTruthyStr e then s
  else if !jsTruthyStr s then e
  else
    some ⟨joinPairs (mergeObj (parsePairs (e.getD "").data) (parsePairs (s.getD "").data))⟩

/-- C8 counterexample: with an empty existing session and the
non-canonical cookie string `"a=1;b=2"` (no spaces), the first merge
returns the string verbatim, but the second merge re-serializes it with
`'; '` separators — so merging twice is not the same string as merging
once. -/
theorem c8_counterexample :
    mergeCookies (some "") (some "a=1;b=2") = some "a=1;b=2" ∧
      mergeCookies (mergeCookies (some "") (some "a=1;b=2")) (some "a=1;b=2") =
        some "a=1; b=2" ∧
      some ("a=1; b=2" : String) ≠ some ("a=1;b=2" : String) := by
  refine ⟨?_, ?_, ?_⟩ <;> decide

/-- Head character (if any) is not whitespace. -/
def headNonWs : List Char → Bool
  | [] => true
  | c :: _ => !c.isWhitespace

/-- Last character (if any) is not whitespace. -/
def lastNonWs (cs : List Char) : Bool := headNonWs cs.reverse

/-- Wellformed cookie name, as produced by `parseCookies`: nonempty, no
`=` or `;`, no leading whitespace. -/
def wfName (n : List Char) : Bool :=
  !n.isEmpty && !(decide ('=' ∈ n)) && !(decide (';' ∈ n)) && headNonWs n

/-- Wellformed cookie value, as produced by `parseCookies`: no `;`, no
trailing whitespace. -/
def wfVal (v : List Char) : Bool := !(decide (';' ∈ v)) && lastNonWs v

/-- Wellformed parsed pair. -/
def wfPair (kv : CookiePair) : Bool := wfName kv.1 && wfVal kv.2

/-- Key list of a cookie object. -/
def keysOf (m : List CookiePair) : List (List Char) := m.map Prod.fst

/-- First-match association lookup. -/
def lookupP : List CookiePair → List Char → Option (List Char)
  | [], _ => none
  | kv :: rest, k => if kv.1 = k then some kv.2 else lookupP rest k

/-- Value of the last occurrence of a key in a pair list. -/
def lookupLast : List CookiePair → List Char → Option (List Char)
  | [], _ => none
  | kv :: rest, k =>
    match lookupLast rest k with
    | some v => some v
    | none => if kv.1 = k then some kv.2 else none

lemma splitOnCharL_ne_nil (c : Char) (cs : List Char) : splitOnCharL c cs ≠ [] := by
  induction cs with
  | nil => simp [splitOnCharL]
  | cons x xs ih =>
    unfold splitOnCharL
    cases h : splitOnCharL c xs with
    | nil => simp
    | cons p ps =>
      dsimp only
      split <;> simp

lemma mem_splitOnCharL_no_sep (c : Char) (cs : List Char) :
    ∀ p ∈ splitOnCharL c cs, c ∉ p := by
  induction cs with
  | nil =>
    intro p hp
    simp only [splitOnCharL, List.mem_singleton] at hp
    subst hp
    simp
  | cons x xs ih =>
    intro p hp
    unfold splitOnCharL at hp
    cases h : splitOnCharL c xs with
    | nil => exact absurd h (splitOnCharL_ne_nil c xs)
    | cons q qs =>
      rw [h] at hp
      dsimp only at hp
      by_cases hx : x = c
      · rw [if_pos hx] at hp
        rcases List.mem_cons.mp hp with h1 | h1
        · subst h1; simp
        · exact ih p (by rw [h]; exact h1)
      · rw [if_neg hx] at hp
        rcases List.mem_cons.mp hp with h1 | h1
        · subst h1
          intro hcmem
          rcases List.mem_cons.mp hcmem with h2 | h2
          · exact hx h2.symm
          · exact ih q (by rw [h]; exact List.mem_cons_self q qs) h2
        · exact ih p (by rw [h]; exact List.mem_cons_of_mem q h1)

lemma splitOnCharL_cons (c x : Char) (xs : List Char) :
    splitOnCharL c (x :: xs) =
      (match splitOnCharL c xs with
       | [] => [[]]
       | p :: ps => if x = c then [] :: p :: ps else (x :: p) :: ps) := rfl

lemma splitOnCharL_no_sep {c : Char} {xs : List Char} (h : c ∉ xs) :
    splitOnCharL c xs = [xs] := by
  induction xs with
  | nil => rfl
  | cons x xs ih =>
    have hx : ¬ x = c := fun he => h (he ▸ List.mem_cons_self x xs)
    rw [splitOnCharL_cons, ih (fun hm => h (List.mem_cons_of_mem _ hm))]
    simp [hx]

lemma splitOnCharL_append_sep {c : Char} {xs : List Char} (ys : List Char) (h : c ∉ xs) :
    splitOnCharL c (xs ++ c :: ys) = xs :: splitOnCharL c ys := by
  induction xs with
  | nil =>
    simp only [List.nil_append]
    rw [splitOnCharL_cons]
    cases hs : splitOnCharL c ys with
    | nil => exact absurd hs (splitOnCharL_ne_nil c ys)
    | cons p ps => simp
  | cons x xs ih =>
    have hx : ¬ x = c := fun he => h (he ▸ List.mem_cons_self x xs)
    have ih' := ih (fun hm => h (List.mem_cons_of_mem _ hm))
    simp only [List.cons_append]
    rw [splitOnCharL_cons, ih']
    simp [hx]

lemma splitOnCharL_cons_ne {c x : Char} (xs : List Char) (hx : ¬ x = c) :
    splitOnCharL c (x :: xs) =
      (x :: (splitOnCharL c xs).headD []) :: (splitOnCharL c xs).tail := by
  rw [splitOnCharL_cons]
  cases hs : splitOnCharL c xs with
  | nil => exact absurd hs (splitOnCharL_ne_nil c xs)
  | cons p ps => simp [hx]

lemma split_intercalate (pieces : List (List Char)) (hne : pieces ≠ [])
    (hsep : ∀ p ∈ pieces, (';' : Char) ∉ p) :
    splitOnCharL ';' (intercalateChars [';', ' '] pieces) =
      pieces.headD [] :: pieces.tail.map (fun p => ' ' :: p) := by
  induction pieces with
  | nil => exact absurd rfl hne
  | cons p rest ih =>
    cases rest with
    | nil =>
      show splitOnCharL ';' p = [p]
      exact splitOnCharL_no_sep (hsep p (List.mem_cons_self _ _))
    | cons q qs =>
      have hp : (';' : Char) ∉ p := hsep p (List.mem_cons_self _ _)
      have ih' := ih (by simp) (fun r hr => hsep r (List.mem_cons_of_mem _ hr))
      have hstep : intercalateChars [';', ' '] (p :: q :: qs) =
          p ++ ';' :: ' ' :: intercalateChars [';', ' '] (q :: qs) := by
        simp [intercalateChars, List.append_assoc]
      rw [hstep, splitOnCharL_append_sep _ hp,
        splitOnCharL_cons_ne _ (by decide), ih']
      rfl

lemma trim_of_clean {cs : List Char} (hh : headNonWs cs = true) (hl : lastNonWs cs = true) :
    trimChars cs = cs := by
  unfold trimChars
  have h1 : cs.dropWhile Char.isWhitespace = cs := by
    cases cs with
    | nil => rfl
    | cons c tl =>
      simp only [headNonWs, Bool.not_eq_true'] at hh
      simp [List.dropWhile_cons, hh]
  rw [h1]
  have h2 : cs.reverse.dropWhile Char.isWhitespace = cs.reverse := by
    unfold lastNonWs at hl
    cases hr : cs.reverse with
    | nil => rfl
    | cons c tl =>
      rw [hr] at hl
      simp only [headNonWs, Bool.not_eq_true'] at hl
      simp [List.dropWhile_cons, hl]
  rw [h2, List.reverse_reverse]

lemma trim_cons_ws {c : Char} (hc : c.isWhitespace = true) (cs : List Char) :
    trimChars (c :: cs) = trimChars cs := by
  unfold trimChars
  simp [List.dropWhile_cons, hc]

lemma mem_takeWhile_pred {p : Char → Bool} {l : List Char} {a : Char}
    (h : a ∈ l.takeWhile p) : p a = true := by
  induction l with
  | nil => cases h
  | cons c tl ih =>
    rw [List.takeWhile_cons] at h
    by_cases hc : p c = true
    · rw [if_pos hc] at h
      rcases List.mem_cons.mp h with h1 | h1
      · subst h1; exact hc
      · exact ih h1
    · rw [if_neg hc] at h
      cases h

lemma cookieName_append {n v : List Char} (hn : ('=' : Char) ∉ n) :
    cookieName (n ++ '=' :: v) = n := by
  unfold cookieName
  induction n with
  | nil => simp [List.takeWhile_cons]
  | cons c tl ih =>
    have hc : ¬ c = '=' := fun he => hn (he ▸ List.mem_cons_self c tl)
    simp only [List.cons_append, List.takeWhile_cons]
    have hcb : (c != '=') = true := by simp [hc]
    rw [hcb]
    simp only [if_true]
    rw [ih (fun hm => hn (List.mem_cons_of_mem _ hm))]

lemma dropWhile_toEq {n v : List Char} (hn : ('=' : Char) ∉ n) :
    (n ++ '=' :: v).dropWhile (fun c => c != '=') = '=' :: v := by
  induction n with
  | nil => simp [List.dropWhile_cons]
  | cons c tl ih =>
    have hc : ¬ c = '=' := fun he => hn (he ▸ List.mem_cons_self c tl)
    simp only [List.cons_append, List.dropWhile_cons]
    have hcb : (c != '=') = true := by simp [hc]
    rw [hcb]
    simp only [if_true]
    exact ih (fun hm => hn (List.mem_cons_of_mem _ hm))

lemma cookieVal_append {n v : List Char} (hn : ('=' : Char) ∉ n) :
    cookieVal (n ++ '=' :: v) = v := by
  unfold cookieVal
  rw [dropWhile_toEq hn]

lemma wfName_iff {n : List Char} :
    wfName n = true ↔
      n ≠ [] ∧ ('=' : Char) ∉ n ∧ (';' : Char) ∉ n ∧ headNonWs n = true := by
  unfold wfName
  simp [List.isEmpty_iff, and_assoc]

lemma wfVal_iff {v : List Char} :
    wfVal v = true ↔ (';' : Char) ∉ v ∧ lastNonWs v = true := by
  unfold wfVal
  simp [and_assoc]

lemma headNonWs_dropWhile (l : List Char) :
    headNonWs (l.dropWhile Char.isWhitespace) = true := by
  induction l with
  | nil => rfl
  | cons c tl ih =>
    rw [List.dropWhile_cons]
    by_cases hc : c.isWhitespace = true
    · rw [if_pos hc]; exact ih
    · rw [if_neg hc]
      simp only [headNonWs, Bool.not_eq_true']
      simpa using hc

lemma lastNonWs_trim (cs : List Char) : lastNonWs (trimChars cs) = true := by
  unfold trimChars lastNonWs
  rw [List.reverse_reverse]
  exact headNonWs_dropWhile _

lemma headNonWs_of_isPrefixOf {a b : List Char} (h : ∃ t, a ++ t = b)
    (hb : headNonWs b = true) (ha : a ≠ []) : headNonWs a = true := by
  obtain ⟨t, rfl⟩ := h
  cases a with
  | nil => exact absurd rfl ha
  | cons c tl => simpa [headNonWs] using hb

lemma headNonWs_trim (cs : List Char) : headNonWs (trimChars cs) = true := by
  unfold trimChars
  obtain ⟨u, hu⟩ : ∃ u,
      u ++ (cs.dropWhile Char.isWhitespace).reverse.dropWhile Char.isWhitespace =
        (cs.dropWhile Char.isWhitespace).reverse :=
    List.dropWhile_suffix Char.isWhitespace
  cases hR : ((cs.dropWhile Char.isWhitespace).reverse.dropWhile Char.isWhitespace) with
  | nil => rfl
  | cons c tl =>
    rw [hR] at hu
    have hA : headNonWs (cs.dropWhile Char.isWhitespace) = true := headNonWs_dropWhile cs
    have hAeq : (c :: tl).reverse ++ u.reverse = cs.dropWhile Char.isWhitespace := by
      have h2 := congrArg List.reverse hu
      rw [List.reverse_append, List.reverse_reverse] at h2
      exact h2
    exact headNonWs_of_isPrefixOf ⟨u.reverse, hAeq⟩ hA (by simp)

lemma keysOf_cons (kv : CookiePair) (rest : List CookiePair) :
    keysOf (kv :: rest) = kv.1 :: keysOf rest := rfl

lemma upsert_cons (kp vp k v : List Char) (rest : List CookiePair) :
    upsert ((kp, vp) :: rest) k v =
      if kp = k then (kp, v) :: rest else (kp, vp) :: upsert rest k v := rfl

lemma upsert_fresh {m : List CookiePair} {k : List Char} (v : List Char)
    (h : k ∉ keysOf m) : upsert m k v = m ++ [(k, v)] := by
  induction m with
  | nil => rfl
  | cons kv rest ih =>
    rw [keysOf_cons] at h
    obtain ⟨kp, vp⟩ := kv
    have hk : ¬ kp = k := by
      intro he
      subst he
      exact h (List.mem_cons_self _ _)
    rw [upsert_cons, if_neg hk, ih (fun hm => h (List.mem_cons_of_mem _ hm))]
    rfl

lemma keysOf_upsert (m : List CookiePair) (k v : List Char) :
    keysOf (upsert m k v) = if k ∈ keysOf m then keysOf m else keysOf m ++ [k] := by
  induction m with
  | nil => simp [upsert, keysOf]
  | cons kv rest ih =>
    obtain ⟨kp, vp⟩ := kv
    rw [upsert_cons]
    by_cases hk : kp = k
    · rw [if_pos hk]
      subst hk
      simp only [keysOf_cons]
      rw [if_pos (List.mem_cons_self _ _)]
    · rw [if_neg hk]
      simp only [keysOf_cons]
      rw [ih]
      by_cases hmem : k ∈ keysOf rest
      · rw [if_pos hmem, if_pos (List.mem_cons_of_mem _ hmem)]
      · rw [if_neg hmem, if_neg (by
          intro hmk
          rcases List.mem_cons.mp hmk with h1 | h1
          · exact hk h1.symm
          · exact hmem h1)]
        simp

lemma lookupP_upsert (m : List CookiePair) (k v k' : List Char) :
    lookupP (upsert m k v) k' = if k' = k then some v else lookupP m k' := by
  induction m with
  | nil =>
    unfold upsert lookupP
    by_cases h : k = k'
    · subst h
      simp
    · rw [if_neg h, if_neg (fun he => h he.symm)]
      rfl
  | cons kv rest ih =>
    obtain ⟨kp, vp⟩ := kv
    rw [upsert_cons]
    by_cases hk : kp = k
    · rw [if_pos hk]
      subst hk
      unfold lookupP
      dsimp only
      by_cases h2 : kp = k'
      · rw [if_pos h2, if_pos h2.symm]
      · rw [if_neg h2, if_neg (fun he => h2 he.symm), if_neg h2]
    · rw [if_neg hk]
      unfold lookupP
      dsimp only
      by_cases h2 : kp = k'
      · rw [if_pos h2, if_neg (fun he => hk (h2.trans he)), if_pos h2]
      · rw [if_neg h2, ih, if_neg h2]

lemma lookupP_none_of_not_mem {m : List CookiePair} {k : List Char}
    (h : k ∉ keysOf m) : lookupP m k = none := by
  induction m with
  | nil => rfl
  | cons kv rest ih =>
    rw [keysOf_cons] at h
    have hk : ¬ kv.1 = k := by
      intro he
      subst he
      exact h (List.mem_cons_self _ _)
    unfold lookupP
    rw [if_neg hk]
    exact ih (fun hm => h (List.mem_cons_of_mem _ hm))

lemma lookupLast_none_of_not_mem {m : List CookiePair} {k : List Char}
    (h : k ∉ keysOf m) : lookupLast m k = none := by
  induction m with
  | nil => rfl
  | cons kv rest ih =>
    rw [keysOf_cons] at h
    have hk : ¬ kv.1 = k := by
      intro he
      subst he
      exact h (List.mem_cons_self _ _)
    unfold lookupLast
    rw [ih (fun hm => h (List.mem_cons_of_mem _ hm))]
    simp [hk]

lemma lookupLast_eq_lookupP {m : List CookiePair} (h : (keysOf m).Nodup)
    (k : List Char) : lookupLast m k = lookupP m k := by
  induction m with
  | nil => rfl
  | cons kv rest ih =>
    rw [keysOf_cons] at h
    have hnotin : kv.1 ∉ keysOf rest := h.not_mem
    unfold lookupLast lookupP
    by_cases hk : kv.1 = k
    · subst hk
      rw [lookupLast_none_of_not_mem hnotin]
      simp
    · rw [ih h.of_cons]
      cases hl : lookupP rest k with
      | none => simp [hk]
      | some v => simp [hk]

lemma nodup_keys_upsert {m : List CookiePair} (k v : List Char)
    (h : (keysOf m).Nodup) : (keysOf (upsert m k v)).Nodup := by
  rw [keysOf_upsert]
  by_cases hmem : k ∈ keysOf m
  · rw [if_pos hmem]; exact h
  · rw [if_neg hmem]
    exact h.append (List.nodup_singleton k) (by simpa [List.disjoint_right] using hmem)

lemma wf_pairs_upsert {m : List CookiePair} {k v : List Char}
    (hm : ∀ kv ∈ m, wfPair kv = true) (hkv : wfPair (k, v) = true) :
    ∀ kv ∈ upsert m k v, wfPair kv = true := by
  induction m with
  | nil =>
    intro kv hkvmem
    simp only [upsert, List.mem_singleton] at hkvmem
    subst hkvmem
    exact hkv
  | cons p rest ih =>
    obtain ⟨kp, vp⟩ := p
    intro kv hkvmem
    rw [upsert_cons] at hkvmem
    by_cases hk : kp = k
    · rw [if_pos hk] at hkvmem
      rcases List.mem_cons.mp hkvmem with h1 | h1
      · subst h1
        have h2 := hm (kp, vp) (List.mem_cons_self _ _)
        subst hk
        unfold wfPair at *
        simp only [Bool.and_eq_true] at h2 hkv ⊢
        exact ⟨h2.1, hkv.2⟩
      · exact hm kv (List.mem_cons_of_mem _ h1)
    · rw [if_neg hk] at hkvmem
      rcases List.mem_cons.mp hkvmem with h1 | h1
      · subst h1
        exact hm (kp, vp) (List.mem_cons_self _ _)
      · exact ih (fun q hq => hm q (List.mem_cons_of_mem _ hq)) kv h1

lemma ext_pairs : ∀ (m1 m2 : List CookiePair), keysOf m1 = keysOf m2 →
    (keysOf m1).Nodup → (∀ k, lookupP m1 k = lookupP m2 k) → m1 = m2 := by
  intro m1
  induction m1 with
  | nil =>
    intro m2 hk _ _
    cases m2 with
    | nil => rfl
    | cons kv rest => simp [keysOf] at hk
  | cons kv rest ih =>
    intro m2 hk hnd hl
    cases m2 with
    | nil => simp [keysOf] at hk
    | cons kv2 rest2 =>
      rw [keysOf_cons, keysOf_cons] at hk
      injection hk with hk1 hk2
      have hv : kv.2 = kv2.2 := by
        have h1 := hl kv.1
        unfold lookupP at h1
        rw [if_pos rfl, if_pos hk1.symm] at h1
        exact Option.some.inj h1
      rw [keysOf_cons] at hnd
      have hrest : rest = rest2 := by
        apply ih rest2 hk2 hnd.of_cons
        intro k
        by_cases hkk : k = kv.1
        · subst hkk
          rw [lookupP_none_of_not_mem hnd.not_mem,
            lookupP_none_of_not_mem (hk2 ▸ hnd.not_mem)]
        · have h1 := hl k
          unfold lookupP at h1
          rw [if_neg (fun he => hkk he.symm), if_neg (fun he => hkk (hk1 ▸ he).symm)] at h1
          exact h1
      have hp : kv = kv2 := Prod.ext hk1 hv
      rw [hp, hrest]

lemma keysOf_append (x y : List CookiePair) :
    keysOf (x ++ y) = keysOf x ++ keysOf y := List.map_append _ _ _

lemma mergeObj_cons (a : List CookiePair) (kv : CookiePair) (bs : List CookiePair) :
    mergeObj a (kv :: bs) = mergeObj (upsert a kv.1 kv.2) bs := rfl

lemma mem_keys_upsert_self (m : List CookiePair) (k v : List Char) :
    k ∈ keysOf (upsert m k v) := by
  rw [keysOf_upsert]
  by_cases h : k ∈ keysOf m
  · rw [if_pos h]; exact h
  · rw [if_neg h]; exact List.mem_append_right _ (List.mem_singleton.mpr rfl)

lemma mem_keys_upsert_of_mem {m : List CookiePair} (k v : List Char) {kp : List Char}
    (h : kp ∈ keysOf m) : kp ∈ keysOf (upsert m k v) := by
  rw [keysOf_upsert]
  split
  · exact h
  · exact List.mem_append_left _ h

lemma mem_keys_mergeObj_left : ∀ (b a : List CookiePair) {k : List Char},
    k ∈ keysOf a → k ∈ keysOf (mergeObj a b) := by
  intro b
  induction b with
  | nil => intro a k h; exact h
  | cons kv bs ih =>
    intro a k h
    rw [mergeObj_cons]
    exact ih _ (mem_keys_upsert_of_mem _ _ h)

lemma mem_keys_mergeObj_right : ∀ (b a : List CookiePair) {k : List Char},
    k ∈ keysOf b → k ∈ keysOf (mergeObj a b) := by
  intro b
  induction b with
  | nil => intro a k h; cases h
  | cons kv bs ih =>
    intro a k h
    rw [mergeObj_cons]
    rw [keysOf_cons] at h
    rcases List.mem_cons.mp h with h1 | h1
    · subst h1
      exact mem_keys_mergeObj_left bs _ (mem_keys_upsert_self _ _ _)
    · exact ih _ h1

lemma keysOf_mergeObj_of_sub : ∀ (b a : List CookiePair),
    (∀ k ∈ keysOf b, k ∈ keysOf a) → keysOf (mergeObj a b) = keysOf a := by
  intro b
  induction b with
  | nil => intro a _; rfl
  | cons kv bs ih =>
    intro a h
    rw [mergeObj_cons]
    have hk : kv.1 ∈ keysOf a :=
      h kv.1 (by rw [keysOf_cons]; exact List.mem_cons_self _ _)
    have hup : keysOf (upsert a kv.1 kv.2) = keysOf a := by
      rw [keysOf_upsert, if_pos hk]
    rw [ih (upsert a kv.1 kv.2)
      (fun k hkm => by
        rw [hup]
        exact h k (by rw [keysOf_cons]; exact List.mem_cons_of_mem _ hkm)), hup]

lemma nodup_keys_mergeObj : ∀ (b a : List CookiePair),
    (keysOf a).Nodup → (keysOf (mergeObj a b)).Nodup := by
  intro b
  induction b with
  | nil => intro a h; exact h
  | cons kv bs ih =>
    intro a h
    rw [mergeObj_cons]
    exact ih _ (nodup_keys_upsert _ _ h)

lemma wf_pairs_mergeObj : ∀ (b a : List CookiePair),
    (∀ kv ∈ a, wfPair kv = true) → (∀ kv ∈ b, wfPair kv = true) →
    ∀ kv ∈ mergeObj a b, wfPair kv = true := by
  intro b
  induction b with
  | nil => intro a ha _; exact ha
  | cons kv bs ih =>
    intro a ha hb
    rw [mergeObj_cons]
    apply ih
    · apply wf_pairs_upsert ha
      simpa using hb kv (List.mem_cons_self _ _)
    · exact fun q hq => hb q (List.mem_cons_of_mem _ hq)

lemma lookupP_mergeObj : ∀ (b a : List CookiePair) (k : List Char),
    lookupP (mergeObj a b) k =
      (match lookupLast b k with
       | some v => some v
       | none => lookupP a k) := by
  intro b
  induction b with
  | nil => intro a k; rfl
  | cons kv bs ih =>
    intro a k
    rw [mergeObj_cons, ih,
      show lookupLast (kv :: bs) k =
        (match lookupLast bs k with
         | some v => some v
         | none => if kv.1 = k then some kv.2 else none) from rfl]
    cases hbs : lookupLast bs k with
    | some v => rfl
    | none =>
      dsimp only
      rw [lookupP_upsert]
      by_cases hk : k = kv.1
      · rw [if_pos hk, if_pos hk.symm]
      · rw [if_neg hk, if_neg (fun he => hk he.symm)]

lemma mergeObj_replay (a b : List CookiePair)
    (hnd : (keysOf (mergeObj a b)).Nodup) :
    mergeObj (mergeObj a b) b = mergeObj a b := by
  apply ext_pairs
  · exact keysOf_mergeObj_of_sub b _ (fun k hk => mem_keys_mergeObj_right b a hk)
  · rw [keysOf_mergeObj_of_sub b _ (fun k hk => mem_keys_mergeObj_right b a hk)]
    exact hnd
  · intro k
    rw [lookupP_mergeObj b (mergeObj a b) k]
    cases hb : lookupLast b k with
    | none => rfl
    | some v =>
      rw [lookupP_mergeObj b a k, hb]

lemma mergeObj_self {m : List CookiePair} (hnd : (keysOf m).Nodup) :
    mergeObj m m = m := by
  apply ext_pairs
  · exact keysOf_mergeObj_of_sub m m (fun k hk => hk)
  · rw [keysOf_mergeObj_of_sub m m (fun k hk => hk)]
    exact hnd
  · intro k
    rw [lookupP_mergeObj, lookupLast_eq_lookupP hnd]
    cases h : lookupP m k <;> rfl

lemma mergeObj_append_fresh : ∀ (b a : List CookiePair),
    (∀ k ∈ keysOf b, k ∉ keysOf a) → (keysOf b).Nodup →
    mergeObj a b = a ++ b := by
  intro b
  induction b with
  | nil => intro a _ _; simp [mergeObj]
  | cons kv bs ih =>
    intro a hd hnd
    obtain ⟨k0, v0⟩ := kv
    rw [mergeObj_cons]
    rw [keysOf_cons] at hnd hd
    have hk0 : k0 ∉ keysOf a := hd k0 (List.mem_cons_self _ _)
    have hup : upsert a k0 v0 = a ++ [(k0, v0)] := upsert_fresh v0 hk0
    rw [show upsert a (k0, v0).1 (k0, v0).2 = a ++ [(k0, v0)] from hup]
    rw [ih (a ++ [(k0, v0)]) ?hfresh hnd.of_cons]
    · simp
    case hfresh =>
      intro k hk hmem
      rw [keysOf_append] at hmem
      rcases List.mem_append.mp hmem with h1 | h1
      · exact hd k (List.mem_cons_of_mem _ hk) h1
      · have hke : k = k0 := by simpa [keysOf] using h1
        subst hke
        exact hnd.not_mem hk

lemma headNonWs_append {n : List Char} (rest : List Char) (hne : n ≠ [])
    (hh : headNonWs n = true) : headNonWs (n ++ rest) = true := by
  cases n with
  | nil => exact absurd rfl hne
  | cons c tl => simpa [headNonWs, List.cons_append] using hh

lemma lastNonWs_of_suffix {v t : List Char} (h : v <:+ t) (ht : lastNonWs t = true) :
    lastNonWs v = true := by
  obtain ⟨u, rfl⟩ := h
  unfold lastNonWs at *
  rw [List.reverse_append] at ht
  cases hv : v.reverse with
  | nil => rfl
  | cons c tl =>
    rw [hv] at ht
    simp only [List.cons_append, headNonWs] at ht ⊢
    exact ht

lemma lastNonWs_piece {n v : List Char} (hv : lastNonWs v = true) :
    lastNonWs (n ++ '=' :: v) = true := by
  unfold lastNonWs at *
  rw [List.reverse_append, List.reverse_cons]
  cases hr : v.reverse with
  | nil => simp [headNonWs]
  | cons c tl =>
    rw [hr] at hv
    simp only [List.cons_append, headNonWs] at hv ⊢
    exact hv

lemma mem_trim_subset {a : Char} {cs : List Char} (h : a ∈ trimChars cs) : a ∈ cs := by
  unfold trimChars at h
  rw [List.mem_reverse] at h
  have h1 : a ∈ (cs.dropWhile Char.isWhitespace).reverse :=
    (List.dropWhile_sublist _).subset h
  rw [List.mem_reverse] at h1
  exact (List.dropWhile_sublist _).subset h1

lemma headNonWs_takeWhile {p : Char → Bool} {t : List Char}
    (hne : t.takeWhile p ≠ []) (ht : headNonWs t = true) :
    headNonWs (t.takeWhile p) = true := by
  cases t with
  | nil => exact absurd rfl hne
  | cons c tl =>
    rw [List.takeWhile_cons] at hne ⊢
    by_cases hc : p c = true
    · rw [if_pos hc] at hne ⊢
      simpa [headNonWs] using ht
    · rw [if_neg hc] at hne
      exact absurd rfl hne

lemma mem_cookieVal_subset {a : Char} {t : List Char} (h : a ∈ cookieVal t) : a ∈ t := by
  unfold cookieVal at h
  cases hd : t.dropWhile (fun c => c != '=') with
  | nil => rw [hd] at h; cases h
  | cons x rest =>
    rw [hd] at h
    have h2 : a ∈ t.dropWhile (fun c => c != '=') := by
      rw [hd]; exact List.mem_cons_of_mem _ h
    exact (List.dropWhile_sublist _).subset h2

lemma cookieVal_suffix (t : List Char) : cookieVal t <:+ t := by
  unfold cookieVal
  cases hd : t.dropWhile (fun c => c != '=') with
  | nil => exact List.nil_suffix
  | cons x rest =>
    have h1 : (x :: rest) <:+ t := hd ▸ List.dropWhile_suffix _
    exact (List.suffix_cons x rest).trans h1

lemma parseStep_wf_result {piece : List Char} (hsep : (';' : Char) ∉ piece)
    (hn : ¬(cookieName (trimChars piece)).isEmpty = true) :
    wfPair (cookieName (trimChars piece), cookieVal (trimChars piece)) = true := by
  have hname_ne : cookieName (trimChars piece) ≠ [] := by
    simpa [List.isEmpty_iff] using hn
  unfold wfPair
  rw [Bool.and_eq_true]
  constructor
  · rw [wfName_iff]
    refine ⟨hname_ne, ?_, ?_, ?_⟩
    · intro hm
      have := mem_takeWhile_pred hm
      simp at this
    · intro hm
      exact hsep (mem_trim_subset ((List.takeWhile_sublist _).subset hm))
    · exact headNonWs_takeWhile hname_ne (headNonWs_trim piece)
  · rw [wfVal_iff]
    constructor
    · intro hm
      exact hsep (mem_trim_subset (mem_cookieVal_subset hm))
    · exact lastNonWs_of_suffix (cookieVal_suffix _) (lastNonWs_trim piece)

lemma parseStep_preserves {acc : List CookiePair} {piece : List Char}
    (hsep : (';' : Char) ∉ piece)
    (hwf : ∀ kv ∈ acc, wfPair kv = true) (hnd : (keysOf acc).Nodup) :
    (∀ kv ∈ parseStep acc piece, wfPair kv = true) ∧
      (keysOf (parseStep acc piece)).Nodup := by
  unfold parseStep
  by_cases h1 : (trimChars piece).isEmpty = true
  · rw [if_pos h1]
    exact ⟨hwf, hnd⟩
  · rw [if_neg h1]
    by_cases h2 : (cookieName (trimChars piece)).isEmpty = true
    · rw [if_pos h2]
      exact ⟨hwf, hnd⟩
    · rw [if_neg h2]
      exact ⟨wf_pairs_upsert hwf (parseStep_wf_result hsep h2),
        nodup_keys_upsert _ _ hnd⟩

lemma foldl_parseStep_wf : ∀ (pieces : List (List Char)) (acc : List CookiePair),
    (∀ p ∈ pieces, (';' : Char) ∉ p) →
    (∀ kv ∈ acc, wfPair kv = true) → (keysOf acc).Nodup →
    (∀ kv ∈ pieces.foldl parseStep acc, wfPair kv = true) ∧
      (keysOf (pieces.foldl parseStep acc)).Nodup := by
  intro pieces
  induction pieces with
  | nil => intro acc _ hwf hnd; exact ⟨hwf, hnd⟩
  | cons p ps ih =>
    intro acc hsep hwf hnd
    rw [List.foldl_cons]
    obtain ⟨hw2, hn2⟩ := parseStep_preserves (hsep p (List.mem_cons_self _ _)) hwf hnd
    exact ih _ (fun q hq => hsep q (List.mem_cons_of_mem _ hq)) hw2 hn2

lemma parsePairs_wf (cs : List Char) :
    (∀ kv ∈ parsePairs cs, wfPair kv = true) ∧ (keysOf (parsePairs cs)).Nodup := by
  unfold parsePairs
  exact foldl_parseStep_wf _ [] (fun p hp => mem_splitOnCharL_no_sep ';' cs p hp)
    (fun kv h => absurd h (List.not_mem_nil kv)) List.nodup_nil

lemma parseStep_exact {acc : List CookiePair} {n v : List Char}
    (h : wfPair (n, v) = true) :
    parseStep acc (n ++ '=' :: v) = upsert acc n v ∧
      parseStep acc (' ' :: (n ++ '=' :: v)) = upsert acc n v := by
  have h2 : wfName n = true ∧ wfVal v = true := by
    have h3 := h
    unfold wfPair at h3
    simpa [Bool.and_eq_true] using h3
  obtain ⟨hne, heq, hsemi, hh⟩ := wfName_iff.mp h2.1
  obtain ⟨hvsemi, hvl⟩ := wfVal_iff.mp h2.2
  have hclean : trimChars (n ++ '=' :: v) = n ++ '=' :: v :=
    trim_of_clean (headNonWs_append _ hne hh) (lastNonWs_piece hvl)
  have hclean2 : trimChars (' ' :: (n ++ '=' :: v)) = n ++ '=' :: v := by
    rw [trim_cons_ws (by decide)]
    exact hclean
  have hempty : (n ++ '=' :: v).isEmpty = false := by
    cases n with
    | nil => exact absurd rfl hne
    | cons c tl => rfl
  have hnameN : n.isEmpty = false := by
    cases n with
    | nil => exact absurd rfl hne
    | cons c tl => rfl
  constructor
  · unfold parseStep
    rw [hclean, hempty, cookieName_append heq, hnameN, cookieVal_append heq]
    simp
  · unfold parseStep
    rw [hclean2, hempty, cookieName_append heq, hnameN, cookieVal_append heq]
    simp

lemma foldl_parseStep_spaced : ∀ (rest : List CookiePair) (acc : List CookiePair),
    (∀ kv ∈ rest, wfPair kv = true) →
    (rest.map (fun kv => ' ' :: (kv.1 ++ '=' :: kv.2))).foldl parseStep acc =
      mergeObj acc rest := by
  intro rest
  induction rest with
  | nil => intro acc _; rfl
  | cons kv rs ih =>
    intro acc hwf
    rw [List.map_cons, List.foldl_cons]
    have h1 := (@parseStep_exact acc _ _
      (by simpa using hwf kv (List.mem_cons_self _ _))).2
    rw [h1, mergeObj_cons]
    exact ih _ (fun q hq => hwf q (List.mem_cons_of_mem _ hq))

lemma piece_no_semi {kv : CookiePair} (h : wfPair kv = true) :
    (';' : Char) ∉ kv.1 ++ '=' :: kv.2 := by
  obtain ⟨k, v⟩ := kv
  have h2 : wfName k = true ∧ wfVal v = true := by
    have h3 := h
    unfold wfPair at h3
    simpa [Bool.and_eq_true] using h3
  obtain ⟨_, _, hsemi, _⟩ := wfName_iff.mp h2.1
  obtain ⟨hvsemi, _⟩ := wfVal_iff.mp h2.2
  intro hm
  rcases List.mem_append.mp hm with h1 | h1
  · exact hsemi h1
  · rcases List.mem_cons.mp h1 with h2 | h2
    · exact absurd h2 (by decide)
    · exact hvsemi h2

lemma joinPairs_ne_nil {m : List CookiePair} (h : m ≠ []) : joinPairs m ≠ [] := by
  cases m with
  | nil => exact absurd rfl h
  | cons kv rest =>
    unfold joinPairs
    rw [List.map_cons]
    cases rest with
    | nil => simp [intercalateChars]
    | cons kv2 rest2 => simp [intercalateChars]

lemma parsePairs_joinPairs (m : List CookiePair) (hwf : ∀ kv ∈ m, wfPair kv = true)
    (hnd : (keysOf m).Nodup) : parsePairs (joinPairs m) = m := by
  cases m with
  | nil => rfl
  | cons kv0 rest =>
    unfold parsePairs joinPairs
    rw [List.map_cons]
    rw [split_intercalate _ (by simp) ?hsep]
    case hsep =>
      intro p hp
      rcases List.mem_cons.mp hp with h1 | h1
      · subst h1
        exact piece_no_semi (hwf kv0 (List.mem_cons_self _ _))
      · obtain ⟨q, hq, rfl⟩ := List.mem_map.mp h1
        exact piece_no_semi (hwf q (List.mem_cons_of_mem _ hq))
    simp only [List.headD_cons, List.tail_cons]
    rw [List.foldl_cons]
    have h0 := (@parseStep_exact ([] : List CookiePair) _ _
      (by simpa using hwf kv0 (List.mem_cons_self _ _))).1
    rw [h0]
    have hmm : (rest.map (fun kv : CookiePair => kv.1 ++ '=' :: kv.2)).map
        (fun p => ' ' :: p) = rest.map (fun kv => ' ' :: (kv.1 ++ '=' :: kv.2)) := by
      simp
    rw [hmm, foldl_parseStep_spaced rest _ (fun q hq => hwf q (List.mem_cons_of_mem _ hq))]
    rw [show upsert ([] : List CookiePair) kv0.1 kv0.2 = [kv0] from rfl]
    rw [keysOf_cons] at hnd
    rw [mergeObj_append_fresh rest [kv0] ?hd hnd.of_cons]
    · rfl
    case hd =>
      intro k hk hmem
      have hke : k = kv0.1 := by simpa [keysOf] using hmem
      subst hke
      exact hnd.not_mem hk

/-- Parsed cookie content of a nullable session string (`null` ↦ no
pairs). -/
def parseOpt : Option String → List CookiePair
  | none => []
  | some str => parsePairs str.data

lemma mergeCookies_some_some {e s : String} (he : jsEmpty e = false)
    (hs : jsEmpty s = false) :
    mergeCookies (some e) (some s) =
      some ⟨joinPairs (mergeObj (parsePairs e.data) (parsePairs s.data))⟩ := by
  have hTe : jsTruthyStr (some e) = true := by simp [jsTruthyStr, he]
  have hTs : jsTruthyStr (some s) = true := by simp [jsTruthyStr, hs]
  unfold mergeCookies
  rw [hTe, hTs]
  simp

lemma mergeCookies_idem_falsy {e s : Option String} (hs : jsTruthyStr s = false) :
    mergeCookies (mergeCookies e s) s = mergeCookies e s := by
  by_cases he : jsTruthyStr e = true
  · have h1 : mergeCookies e s = e := by
      unfold mergeCookies
      rw [he, hs]
      simp
    rw [h1, h1]
  · have he' : jsTruthyStr e = false := by simpa using he
    have h1 : mergeCookies e s = none := by
      unfold mergeCookies
      rw [he', hs]
      simp
    rw [h1]
    unfold mergeCookies
    rw [hs]
    simp [jsTruthyStr]

lemma mergeCookies_idem_main {es ss : String} (he : jsEmpty es = false)
    (hs : jsEmpty ss = false)
    (hM : mergeObj (parsePairs es.data) (parsePairs ss.data) ≠ []) :
    mergeCookies (mergeCookies (some es) (some ss)) (some ss) =
      mergeCookies (some es) (some ss) := by
  have hwfM := wf_pairs_mergeObj (parsePairs ss.data) (parsePairs es.data)
    (parsePairs_wf _).1 (parsePairs_wf _).1
  have hndM := nodup_keys_mergeObj (parsePairs ss.data) (parsePairs es.data)
    (parsePairs_wf _).2
  have hjE : jsEmpty
      (⟨joinPairs (mergeObj (parsePairs es.data) (parsePairs ss.data))⟩ : String) =
      false := by
    unfold jsEmpty
    cases hj : joinPairs (mergeObj (parsePairs es.data) (parsePairs ss.data)) with
    | nil => exact absurd hj (joinPairs_ne_nil hM)
    | cons c tl => rfl
  rw [mergeCookies_some_some he hs, mergeCookies_some_some hjE hs]
  have hdata : (⟨joinPairs (mergeObj (parsePairs es.data) (parsePairs ss.data))⟩ :
      String).data = joinPairs (mergeObj (parsePairs es.data) (parsePairs ss.data)) := rfl
  rw [hdata, parsePairs_joinPairs _ hwfM hndM, mergeObj_replay _ _ hndM]

/-- C8 counterexample is above; the amended statement: merging the same
cookie string twice equals merging it once as a *string* whenever the
existing session and the new cookies are both non-empty and at least one
cookie pair parses out of them, or whenever the new cookie string is
falsy; and it holds unconditionally at the level of parsed cookie
content. -/
theorem c8_amended :
    (∀ (e s : String), jsTruthyStr (some e) = true → jsTruthyStr (some s) = true →
      mergeObj (parsePairs e.data) (parsePairs s.data) ≠ [] →
      mergeCookies (mergeCookies (some e) (some s)) (some s) =
        mergeCookies (some e) (some s)) ∧
    (∀ (e s : Option String), jsTruthyStr s = false →
      mergeCookies (mergeCookies e s) s = mergeCookies e s) ∧
    (∀ (e s : Option String),
      parseOpt (mergeCookies (mergeCookies e s) s) = parseOpt (mergeCookies e s)) := by
  refine ⟨?_, ?_, ?_⟩
  · intro e s he hs hM
    exact mergeCookies_idem_main (by simpa [jsTruthyStr] using he)
      (by simpa [jsTruthyStr] using hs) hM
  · intro e s hs
    exact mergeCookies_idem_falsy hs
  · intro e s
    by_cases hs : jsTruthyStr s = true
    · cases s with
      | none => simp [jsTruthyStr] at hs
      | some ss =>
        have hsE : jsEmpty ss = false := by simpa [jsTruthyStr] using hs
        by_cases he : jsTruthyStr e = true
        · cases e with
          | none => simp [jsTruthyStr] at he
          | some es =>
            have heE : jsEmpty es = false := by simpa [jsTruthyStr] using he
            by_cases hM : mergeObj (parsePairs es.data) (parsePairs ss.data) = []
            · have hps : parsePairs ss.data = [] := by
                cases hq : parsePairs ss.data with
                | nil => rfl
                | cons kv r =>
                  have hmem : kv.1 ∈ keysOf
                      (mergeObj (parsePairs es.data) (parsePairs ss.data)) :=
                    mem_keys_mergeObj_right _ _
                      (by rw [hq, keysOf_cons]; exact List.mem_cons_self _ _)
                  rw [hM] at hmem
                  cases hmem
              have h1 := mergeCookies_some_some heE hsE
              rw [hM] at h1
              rw [h1]
              have h3 : mergeCookies (some (⟨joinPairs []⟩ : String)) (some ss) =
                  some ss := by
                have h4 : jsTruthyStr (some (⟨joinPairs []⟩ : String)) = false := by
                  decide
                unfold mergeCookies
                rw [h4, hs]
                simp
              rw [h3]
              show parsePairs ss.data = parsePairs (String.mk (joinPairs [])).data
              rw [hps]
              rfl
            · rw [mergeCookies_idem_main heE hsE hM]
        · have he' : jsTruthyStr e = false := by simpa using he
          have h1 : mergeCookies e (some ss) = some ss := by
            unfold mergeCookies
            rw [he']
            simp [jsTruthyStr, hsE]
          rw [h1, mergeCookies_some_some hsE hsE]
          have hnd := (parsePairs_wf ss.data).2
          rw [show mergeObj (parsePairs ss.data) (parsePairs ss.data) =
              parsePairs ss.data from mergeObj_self hnd]
          show parsePairs (String.mk (joinPairs (parsePairs ss.data))).data =
            parsePairs ss.data
          exact parsePairs_joinPairs _ (parsePairs_wf _).1 hnd
    · have hs' : jsTruthyStr s = false := by simpa using hs
      rw [mergeCookies_idem_falsy hs']

/-- C8 witness: the amended statement at concrete inputs — a non-empty
session merged twice with a non-empty cookie string, and a merge with a
null cookie string. -/
theorem c8_amended_witness :
    mergeCookies (mergeCookies (some "a=1") (some "b=2")) (some "b=2") =
      mergeCookies (some "a=1") (some "b=2") ∧
      mergeCookies (mergeCookies (some "a=1") none) none =
        mergeCookies (some "a=1") none :=
  ⟨c8_amended.1 "a=1" "b=2" (by decide) (by decide) (by decide),
    c8_amended.2.1 (some "a=1") none (by decide)⟩

/-- C2 witness: the amended statement instantiated at the acyclic store
`["a", [0]]` with root `{x: 1}` and rank `Int.toNat`. -/
theorem c2_amended_witness :
    ∃ (fuel : Nat) (w : JsonValue),
      resolveValueMDP [JsonValue.str "a", JsonValue.arr [JsonValue.num 0]] fuel
          (JsonValue.obj [("x", JsonValue.num 1)]) = some w ∧
        refsV (mdpHit [JsonValue.str "a", JsonValue.arr [JsonValue.num 0]])
          (mdpHit [JsonValue.str "a", JsonValue.arr [JsonValue.num 0]]) w = [] :=
  c2_amended.1 [JsonValue.str "a", JsonValue.arr [JsonValue.num 0]]
    (JsonValue.obj [("x", JsonValue.num 1)]) (fun i => i.toNat)
    (by decide) (by decide)
